import Mathlib

/-!
Shallow embedding of the slimjson transformation engine (slimjson.go).

Modelling conventions, fixed once for the whole development:

* JSON values are a closed inductive type `JValue`.  Go `map[string]interface{}`
  values are embedded as insertion-ordered association lists, following the
  spec's Value Model ("insertion order ... should be preserved"); Go's map
  iteration order is unspecified at runtime, and the embedding fixes it to
  the stored order.
* Go `float64` is embedded as `ℚ` (exact arithmetic standing in for IEEE
  doubles); `int` configuration fields are embedded as unbounded `Int`,
  except the bool-compression bit flags, where a left shift by the key index
  makes 64-bit wraparound reachable for real inputs: there the modulus
  `% 2 ^ 64` is explicit.
* `math/rand` (array sampling strategy "random") is embedded as an explicit
  permutation oracle `randPerm : Nat -> List Nat` carried by the `Slimmer`;
  `rand.Perm n` is `randPerm n`.  Out-of-range oracle indices fall back to
  `JValue.null` via `List.getD` (with a real permutation they never occur).
* The mutable `nullFields` slice on the Go `Slimmer` is threaded through
  `prune` as an explicit accumulator of type `List String`.
* `strings.EqualFold` is embedded as ASCII-lowercase equality (Go performs
  Unicode simple folding; no claim exercises the difference).
-/

inductive JValue where
  | null : JValue
  | bool (b : Bool) : JValue
  | num (q : ℚ) : JValue
  | str (s : String) : JValue
  | arr (xs : List JValue) : JValue
  | obj (fs : List (String × JValue)) : JValue

/-- Induction over a JSON value with access to the inductive hypothesis at
every array element and object field value. -/
def JValue.inductOn {P : JValue → Prop}
    (hnull : P .null) (hbool : ∀ b, P (.bool b)) (hnum : ∀ q, P (.num q))
    (hstr : ∀ s, P (.str s))
    (harr : ∀ xs, (∀ x ∈ xs, P x) → P (.arr xs))
    (hobj : ∀ fs, (∀ p ∈ fs, P p.2) → P (.obj fs)) : ∀ v, P v
  | .null => hnull
  | .bool b => hbool b
  | .num q => hnum q
  | .str s => hstr s
  | .arr xs => harr xs (fun x hx =>
      have : sizeOf x < sizeOf (JValue.arr xs) := by
        have := List.sizeOf_lt_of_mem hx
        simp only [JValue.arr.sizeOf_spec]
        omega
      JValue.inductOn hnull hbool hnum hstr harr hobj x)
  | .obj fs => hobj fs (fun p hp =>
      have h1 : sizeOf p < sizeOf fs := List.sizeOf_lt_of_mem hp
      have h2 : sizeOf p.2 < sizeOf p := by
        obtain ⟨a, b⟩ := p
        simp only [Prod.mk.sizeOf_spec]
        omega
      have : sizeOf p.2 < sizeOf (JValue.obj fs) := by
        simp only [JValue.obj.sizeOf_spec]
        omega
      JValue.inductOn hnull hbool hnum hstr harr hobj p.2)
termination_by v => sizeOf v

/-- Config (slimjson.go lines 12-79).  Field defaults are Go zero values. -/
structure Config where
  maxDepth : Int := 0
  maxListLength : Int := 0
  maxStringLength : Int := 0
  stripEmpty : Bool := false
  blockList : List String := []
  decimalPlaces : Int := 0
  deduplicateArrays : Bool := false
  sampleStrategy : String := ""
  sampleSize : Int := 0
  nullCompression : Bool := false
  typeInference : Bool := false
  boolCompression : Bool := false
  timestampCompression : Bool := false
  stringPooling : Bool := false
  stringPoolMinOccurrences : Int := 0
  numberDeltaEncoding : Bool := false
  numberDeltaThreshold : Int := 0
  enumDetection : Bool := false
  enumMaxValues : Int := 0
  stripUTF8Emoji : Bool := false

/-- Slimmer (slimjson.go lines 82-88): the configuration together with the
statistics-collector output (string pool and its index-ordered list, enum
pools) and the random source used by `sampleRandom`.  The `nullFields` slice
is not a field here: it is threaded explicitly through `prune`. -/
structure Slimmer where
  config : Config
  randPerm : Nat → List Nat
  stringPool : List (String × Nat) := []
  stringList : List String := []
  enumPools : List (String × List String) := []

/-- New (slimjson.go lines 91-112): fills the three advanced numeric
thresholds with their defaults when the caller supplies the zero value. -/
def New (cfg : Config) (randPerm : Nat → List Nat) : Slimmer :=
  { config :=
      { cfg with
        stringPoolMinOccurrences :=
          if cfg.stringPoolMinOccurrences = 0 then 2 else cfg.stringPoolMinOccurrences
        numberDeltaThreshold :=
          if cfg.numberDeltaThreshold = 0 then 5 else cfg.numberDeltaThreshold
        enumMaxValues :=
          if cfg.enumMaxValues = 0 then 10 else cfg.enumMaxValues }
    randPerm := randPerm }

/-- ASCII lower-casing of one character; stands in for Go Unicode folding. -/
def lowerChar (c : Char) : Char :=
  if 65 ≤ c.toNat ∧ c.toNat ≤ 90 then Char.ofNat (c.toNat + 32) else c

/-- Case-insensitive string equality, modelling strings.EqualFold. -/
def eqFold (a b : String) : Bool :=
  a.toList.map lowerChar == b.toList.map lowerChar

/-- isBlocked (slimjson.go lines 307-314). -/
def isBlocked (cfg : Config) (key : String) : Bool :=
  cfg.blockList.any (fun blocked => eqFold blocked key)

/-- isEmpty (slimjson.go lines 316-328): nil, empty string, empty
array/slice or empty map. -/
def isEmpty : JValue → Bool
  | .null => true
  | .str s => s == ""
  | .arr xs => xs.isEmpty
  | .obj fs => fs.isEmpty
  | _ => false

/-- Truncation toward zero of a rational, modelling Go `int(f)` on float64. -/
def truncQ (q : ℚ) : Int :=
  if q < 0 then ⌈q⌉ else ⌊q⌋

/-- Go `string(rune(n))`: the integer is first truncated to 32 bits, then an
invalid code point (negative, surrogate, or above 0x10FFFF) becomes U+FFFD. -/
def runeToString (n : Int) : String :=
  let r : Int := (n + 2 ^ 31) % 2 ^ 32 - 2 ^ 31
  if 0 ≤ r ∧ (r < 0xD800 ∨ (0xDFFF < r ∧ r ≤ 0x10FFFF)) then
    String.singleton (Char.ofNat r.toNat)
  else
    String.singleton (Char.ofNat 0xFFFD)

/-- valueToString (slimjson.go lines 426-447).  The array and object cases
mirror reflect.Value.String() on a non-string kind, which yields a constant
placeholder of the form "<T Value>". -/
def valueToString : JValue → String
  | .null => "null"
  | .str s => s
  | .num q => runeToString (truncQ q)
  | .bool b => if b then "true" else "false"
  | .arr _ => "<[]interface \x7b\x7d Value>"
  | .obj _ => "<map[string]interface \x7b\x7d Value>"

/-- deduplicateArray (slimjson.go lines 331-344): keep the first occurrence
of each derived string signature.  The Go `seen` map is a membership-only
structure, embedded as the list of signatures seen so far. -/
def dedupGo (seen : List String) : List JValue → List JValue
  | [] => []
  | x :: xs =>
      let key := valueToString x
      if seen.contains key then dedupGo seen xs
      else x :: dedupGo (key :: seen) xs

def deduplicateArray (arr : List JValue) : List JValue :=
  dedupGo [] arr

/-- sampleFirstLast (slimjson.go lines 378-389). -/
def sampleFirstLast (arr : List JValue) (n : Nat) : List JValue :=
  if arr.length ≤ n then arr
  else
    let firstHalf := n / 2
    let secondHalf := n - firstHalf
    arr.take firstHalf ++ arr.drop (arr.length - secondHalf)

/-- sampleRandom (slimjson.go lines 392-403): indices come from the
permutation oracle standing in for rand.Perm. -/
def sampleRandom (s : Slimmer) (arr : List JValue) (n : Nat) : List JValue :=
  if arr.length ≤ n then arr
  else ((s.randPerm arr.length).take n).map (fun idx => arr.getD idx .null)

/-- sampleRepresentative (slimjson.go lines 406-423): evenly spaced indices
(the source computes `int(float64(i) * len / n)`; the embedding uses the
exact value of that expression, `i * len / n` in integer division), clamped
to the last valid index. -/
def sampleRepresentative (arr : List JValue) (n : Nat) : List JValue :=
  if arr.length ≤ n then arr
  else
    (List.range n).map (fun i =>
      let idx := i * arr.length / n
      arr.getD (if arr.length ≤ idx then arr.length - 1 else idx) .null)

/-- sampleArray (slimjson.go lines 347-375).  Negative target sizes would
make the Go slice expressions panic; the embedding clamps them with
`Int.toNat` (no claim exercises a negative size). -/
def sampleArray (s : Slimmer) (arr : List JValue) : List JValue :=
  if arr.length = 0 then arr
  else
    let targetSize : Int :=
      if s.config.sampleSize = 0 ∧ 0 < s.config.maxListLength then
        s.config.maxListLength
      else s.config.sampleSize
    if targetSize = 0 ∨ (arr.length : Int) ≤ targetSize then arr
    else
      if s.config.sampleStrategy == "first_last" then
        sampleFirstLast arr targetSize.toNat
      else if s.config.sampleStrategy == "random" then
        sampleRandom s arr targetSize.toNat
      else if s.config.sampleStrategy == "representative" then
        sampleRepresentative arr targetSize.toNat
      else
        if targetSize < (arr.length : Int) then arr.take targetSize.toNat else arr

/-- Rounding half away from zero, modelling math.Round. -/
def roundHalfAway (q : ℚ) : ℚ :=
  if q < 0 then (⌈q - 1 / 2⌉ : Int) else (⌊q + 1 / 2⌋ : Int)

/-- Rounding to a number of decimal places (slimjson.go lines 293-299),
`math.Round(x * 10^dp) / 10^dp` in exact arithmetic. -/
def roundDP (dp : Int) (q : ℚ) : ℚ :=
  let multiplier : ℚ := 10 ^ dp.toNat
  roundHalfAway (q * multiplier) / multiplier

/-- applyStringPooling (slimjson.go lines 523-531), returning `some idx`
exactly when the source would return the pool index instead of the string. -/
def applyStringPooling (s : Slimmer) (str : String) : Option Nat :=
  if s.config.stringPooling then s.stringPool.lookup str else none

/-- applyTimestampCompression (slimjson.go lines 534-547): the source
detects a timestamp-shaped string but returns it unchanged on every path
(a stub), so the embedding is the identity. -/
def applyTimestampCompression (str : String) : String :=
  str

/-- stripEmoji (slimjson.go lines 699-716): keep printable ASCII plus
newline, carriage return and tab. -/
def stripEmoji (s : String) : String :=
  (s.toList.filter (fun r =>
    (32 ≤ r.toNat && r.toNat ≤ 126) || r == '\n' || r == '\r' || r == '\t')).asString

/-- Numeric extraction in applyNumberDelta (slimjson.go lines 560-571):
`some` of all values exactly when every element is a number. -/
def collectNumbers : List JValue → Option (List ℚ)
  | [] => some []
  | .num q :: rest => (collectNumbers rest).map (fun ns => q :: ns)
  | _ => none

/-- applyNumberDelta (slimjson.go lines 550-601). -/
def applyNumberDelta (cfg : Config) (arr : List JValue) : JValue :=
  if !cfg.numberDeltaEncoding then .arr arr
  else if (arr.length : Int) < cfg.numberDeltaThreshold then .arr arr
  else
    match collectNumbers arr with
    | none => .arr arr
    | some numbers =>
        if numbers.length < 2 then .arr arr
        else
          let deltas := (numbers.zip numbers.tail).map (fun p => p.2 - p.1)
          let firstDelta := deltas.headD 0
          let isSequential := deltas.all (fun d => decide (|d - firstDelta| ≤ 1 / 10000))
          if isSequential && decide (|firstDelta - 1| < 1 / 10000) then
            .obj [("_range", .arr [.num (numbers.headD 0), .num (numbers.getLastD 0)])]
          else .arr arr

/-- Key comparison in applyTypeInference (slimjson.go lines 629-643):
equal entry counts and every key of the first element present. -/
def keysMatch (firstKeys keys : List String) : Bool :=
  keys.length == firstKeys.length && firstKeys.all (fun k => keys.contains k)

/-- Row lookup in applyTypeInference (slimjson.go lines 648-655):
`itemMap[key]`, with Go's nil for a missing key. -/
def lookupD (it : JValue) (k : String) : JValue :=
  match it with
  | .obj fs => (fs.lookup k).getD .null
  | _ => .null

/-- applyTypeInference (slimjson.go lines 604-661). -/
def applyTypeInference (cfg : Config) (arr : List JValue) : JValue :=
  if !cfg.typeInference then .arr arr
  else if arr.length < 3 then .arr arr
  else
    match arr with
    | [] => .arr arr
    | first :: rest =>
        match first with
        | .obj fs0 =>
            let firstKeys := fs0.map (fun p => p.1)
            if rest.all (fun it =>
                 match it with
                 | .obj fs => keysMatch firstKeys (fs.map (fun p => p.1))
                 | _ => false) then
              .obj [("_schema", .arr (firstKeys.map .str)),
                    ("_data", .arr (arr.map (fun it =>
                      .arr (firstKeys.map (fun k => lookupD it k)))))]
            else .arr arr
        | _ => .arr arr

def isBoolV : JValue → Bool
  | .bool _ => true
  | _ => false

/-- The `m[key].(bool)` read in the flags loop of applyBoolCompression; the
type assertion cannot fail for a key collected as boolean-valued. -/
def lookupIsTrue (m : List (String × JValue)) (k : String) : Bool :=
  match m.lookup k with
  | some (.bool b) => b
  | _ => false

/-- Signed 64-bit reading of a bit pattern, as a Go int holds it. -/
def int64OfBits (n : Nat) : Int :=
  if n < 2 ^ 63 then (n : Int) else (n : Int) - 2 ^ 64

/-- Map assignment `m[k] = v` on an association list: overwrite in place,
or append. -/
def setField (fs : List (String × JValue)) (k : String) (v : JValue) :
    List (String × JValue) :=
  if fs.any (fun p => p.1 == k) then
    fs.map (fun p => if p.1 == k then (p.1, v) else p)
  else fs ++ [(k, v)]

/-- applyBoolCompression (slimjson.go lines 664-696).  `flags |= 1 << i` acts
on a 64-bit Go int, so each shifted bit is taken modulo `2 ^ 64`; the final
`m["_bools"] = ...` map assignment overwrites a pre-existing _bools entry. -/
def applyBoolCompression (cfg : Config) (m : List (String × JValue)) :
    List (String × JValue) :=
  if !cfg.boolCompression then m
  else
    let boolKeys := (m.filter (fun p => isBoolV p.2)).map (fun p => p.1)
    if boolKeys.length < 3 then m
    else
      let flags := boolKeys.enum.foldl
        (fun acc p => if lookupIsTrue m p.2 then acc ||| ((1 <<< p.1) % 2 ^ 64) else acc) 0
      setField (m.filter (fun p => !boolKeys.contains p.1)) "_bools"
        (.obj [("flags", .num ((int64OfBits flags : Int) : ℚ)),
               ("keys", .arr (boolKeys.map .str))])

/-- One `stringCounts[str]++` step (collectStatistics): increment in place,
or append with count 1 on first sight. -/
def bump (counts : List (String × Nat)) (s : String) : List (String × Nat) :=
  if counts.any (fun p => p.1 == s) then
    counts.map (fun p => if p.1 == s then (p.1, p.2 + 1) else p)
  else counts ++ [(s, 1)]

/-- One `enumCandidates[fieldPath][str]++` step. -/
def bumpEC (ec : List (String × List (String × Nat))) (path s : String) :
    List (String × List (String × Nat)) :=
  if ec.any (fun p => p.1 == path) then
    ec.map (fun p => if p.1 == path then (p.1, bump p.2 s) else p)
  else ec ++ [(path, [(s, 1)])]

mutual
/-- collectStatsRecursive (slimjson.go lines 482-520): walk the tree
tallying string occurrence counts (strings longer than 3 bytes) and
per-field-path value counts (strings shorter than 50 bytes). -/
def statsV (v : JValue) (path : String) (sc : List (String × Nat))
    (ec : List (String × List (String × Nat))) :
    List (String × Nat) × List (String × List (String × Nat)) :=
  match v with
  | .obj fs => statsFields fs path sc ec
  | .arr xs => statsElems xs path sc ec
  | .str s =>
      let sc1 := if 3 < s.utf8ByteSize then bump sc s else sc
      let ec1 := if path ≠ "" ∧ s.utf8ByteSize < 50 then bumpEC ec path s else ec
      (sc1, ec1)
  | _ => (sc, ec)
termination_by structural v

def statsFields (fs : List (String × JValue)) (path : String)
    (sc : List (String × Nat)) (ec : List (String × List (String × Nat))) :
    List (String × Nat) × List (String × List (String × Nat)) :=
  match fs with
  | [] => (sc, ec)
  | (k, v) :: rest =>
      let newPath := if path == "" then k else path ++ "." ++ k
      let a := statsV v newPath sc ec
      statsFields rest path a.1 a.2
termination_by structural fs

def statsElems (xs : List JValue) (path : String) (sc : List (String × Nat))
    (ec : List (String × List (String × Nat))) :
    List (String × Nat) × List (String × List (String × Nat)) :=
  match xs with
  | [] => (sc, ec)
  | x :: rest =>
      let a := statsV x path sc ec
      statsElems rest path a.1 a.2
termination_by structural xs
end

/-- Pool construction in collectStatistics (slimjson.go lines 457-465): keep
counted strings occurring at least the minimum number of times and longer
than 3 bytes, indexed densely in the order of the counts structure. -/
def buildStringList (cfg : Config) (counts : List (String × Nat)) : List String :=
  counts.filterMap (fun p =>
    if cfg.stringPoolMinOccurrences ≤ (p.2 : Int) ∧ 3 < p.1.utf8ByteSize then
      some p.1
    else none)

/-- Enum pool construction (slimjson.go lines 468-478). -/
def buildEnumPools (cfg : Config) (ec : List (String × List (String × Nat))) :
    List (String × List String) :=
  ec.filterMap (fun p =>
    if 0 < p.2.length ∧ (p.2.length : Int) ≤ cfg.enumMaxValues then
      some (p.1, p.2.map (fun q => q.1))
    else none)

/-- collectStatistics (slimjson.go lines 450-479), returning the Slimmer
with its pools populated. -/
def collectStatistics (s : Slimmer) (data : JValue) : Slimmer :=
  let st := statsV data "" [] []
  let strList := if s.config.stringPooling then buildStringList s.config st.1 else []
  { s with
    stringList := strList
    stringPool := strList.enum.map (fun p => (p.2, p.1))
    enumPools := if s.config.enumDetection then buildEnumPools s.config st.2 else [] }

/-- The depth gate of prune (slimjson.go lines 154-157). -/
def depthCut (cfg : Config) (depth : Nat) : Bool :=
  0 < cfg.maxDepth && cfg.maxDepth ≤ (depth : Int)

/-- Go `v == nil` on an interface value. -/
def isNullV : JValue → Bool
  | .null => true
  | _ => false

/-- The string case of prune (slimjson.go lines 257-291), after the
empty-string check: strip non-ASCII, pool, timestamp-compress, truncate. -/
def pruneString (s : Slimmer) (str0 : String) : JValue :=
  let str1 := if s.config.stripUTF8Emoji then stripEmoji str0 else str0
  match (if s.config.stringPooling then applyStringPooling s str1 else none) with
  | some idx => .num idx
  | none =>
      let str := if s.config.timestampCompression then applyTimestampCompression str1 else str1
      if 0 < s.config.maxStringLength then
        if s.config.maxStringLength < (str.length : Int) then
          if 3 < s.config.maxStringLength then
            .str ((str.toList.take (s.config.maxStringLength.toNat - 3)).asString ++ "...")
          else .str (str.toList.take s.config.maxStringLength.toNat).asString
        else .str str
      else .str str

/-- The array pipeline tail of prune (slimjson.go lines 240-255): type
inference, then number delta encoding if the value is still an array. -/
def applyArrayRewrites (s : Slimmer) (finalList : List JValue) : JValue :=
  let result := if s.config.typeInference then applyTypeInference s.config finalList
                else .arr finalList
  match result with
  | .arr ys =>
      if s.config.numberDeltaEncoding then applyNumberDelta s.config ys else .arr ys
  | other => other

mutual
/-- prune (slimjson.go lines 146-305).  The accumulator `ns` is the
Slimmer's `nullFields` state. -/
def pruneV (s : Slimmer) (v : JValue) (depth : Nat) (ns : List String) :
    JValue × List String :=
  match v with
  | .null => (.null, ns)
  | .obj fs =>
      if depthCut s.config depth then (.null, ns)
      else if fs.isEmpty then
        ((if s.config.stripEmpty then .null else .obj fs), ns)
      else
        let p := pruneFields s fs depth ns
        if s.config.stripEmpty && p.1.isEmpty then (.null, p.2)
        else
          (.obj (if s.config.boolCompression then applyBoolCompression s.config p.1
                 else p.1), p.2)
  | .arr xs =>
      if depthCut s.config depth then (.null, ns)
      else if xs.isEmpty then
        ((if s.config.stripEmpty then .null else .arr xs), ns)
      else
        let p := pruneElems s xs depth ns
        let fullList := if s.config.deduplicateArrays then deduplicateArray p.1 else p.1
        let finalList := sampleArray s fullList
        if s.config.stripEmpty && finalList.isEmpty then (.null, p.2)
        else (applyArrayRewrites s finalList, p.2)
  | .str str =>
      if depthCut s.config depth then (.null, ns)
      else if s.config.stripEmpty && str == "" then (.null, ns)
      else (pruneString s str, ns)
  | .num q =>
      if depthCut s.config depth then (.null, ns)
      else if 0 ≤ s.config.decimalPlaces then (.num (roundDP s.config.decimalPlaces q), ns)
      else (.num q, ns)
  | .bool b =>
      if depthCut s.config depth then (.null, ns) else (.bool b, ns)
termination_by structural v

/-- The object loop of prune (slimjson.go lines 171-194): blocklist check,
null tracking, recursion at depth+1, strip-empty filtering. -/
def pruneFields (s : Slimmer) (fs : List (String × JValue)) (depth : Nat)
    (ns : List String) : List (String × JValue) × List String :=
  match fs with
  | [] => ([], ns)
  | (k, v) :: rest =>
      if isBlocked s.config k then pruneFields s rest depth ns
      else
        let ns1 := if isNullV v && s.config.nullCompression then ns ++ [k] else ns
        let p := pruneV s v (depth + 1) ns1
        let q := pruneFields s rest depth p.2
        if s.config.stripEmpty && isEmpty p.1 then q
        else ((k, p.1) :: q.1, q.2)
termination_by structural fs

/-- The array element loop of prune (slimjson.go lines 217-226). -/
def pruneElems (s : Slimmer) (xs : List JValue) (depth : Nat) (ns : List String) :
    List JValue × List String :=
  match xs with
  | [] => ([], ns)
  | x :: rest =>
      let p := pruneV s x (depth + 1) ns
      let q := pruneElems s rest depth p.2
      if s.config.stripEmpty && isEmpty p.1 then q
      else (p.1 :: q.1, q.2)
termination_by structural xs
end

/-- Slim (slimjson.go lines 116-144): statistics pass, prune pass, side-car
attachment on a top-level object. -/
def Slimmer.Slim (s0 : Slimmer) (data : JValue) : JValue :=
  let s := if s0.config.stringPooling || s0.config.enumDetection then
             collectStatistics s0 data
           else s0
  let pr := pruneV s data 0 []
  match pr.1 with
  | .obj fs =>
      let f1 := if s.config.stringPooling ∧ 0 < s.stringList.length then
                  setField fs "_strings" (.arr (s.stringList.map .str))
                else fs
      let f2 := if s.config.enumDetection ∧ 0 < s.enumPools.length then
                  setField f1 "_enums"
                    (.obj (s.enumPools.map (fun p => (p.1, .arr (p.2.map .str)))))
                else f1
      let f3 := if s.config.nullCompression ∧ 0 < pr.2.length then
                  setField f2 "_nulls" (.arr (pr.2.map .str))
                else f2
      .obj f3
  | r => r

/-- The identity permutation, one concrete admissible random source. -/
def idPerm (n : Nat) : List Nat := List.range n

/-- Construct a Slimmer and run one Slim call. -/
def runSlim (cfg : Config) (randPerm : Nat → List Nat) (v : JValue) : JValue :=
  (New cfg randPerm).Slim v

namespace Basic

/-!
The second, basic engine in slimjson.go (lines 717-888): a Config with only
the five structural options and a prune that truncates arrays to
MaxListLength before transforming elements.
-/

/-- Config of the basic engine (slimjson.go lines 726-747). -/
structure Config where
  maxDepth : Int := 0
  maxListLength : Int := 0
  maxStringLength : Int := 0
  stripEmpty : Bool := false
  blockList : List String := []

/-- isBlocked (slimjson.go lines 867-874). -/
def isBlocked (cfg : Config) (key : String) : Bool :=
  cfg.blockList.any (fun blocked => eqFold blocked key)

/-- The depth gate (slimjson.go lines 773-776). -/
def depthCut (cfg : Config) (depth : Nat) : Bool :=
  0 < cfg.maxDepth && cfg.maxDepth ≤ (depth : Int)

mutual
/-- prune of the basic engine (slimjson.go lines 765-865). -/
def prune (cfg : Config) (v : JValue) (depth : Nat) : JValue :=
  match v with
  | .null => .null
  | .obj fs =>
      if depthCut cfg depth then .null
      else if fs.isEmpty then (if cfg.stripEmpty then .null else .obj fs)
      else
        let nf := pruneFields cfg fs depth
        if cfg.stripEmpty && nf.isEmpty then .null else .obj nf
  | .arr xs =>
      if depthCut cfg depth then .null
      else if xs.isEmpty then (if cfg.stripEmpty then .null else .arr xs)
      else
        let length := if 0 < cfg.maxListLength ∧ cfg.maxListLength < (xs.length : Int)
                      then cfg.maxListLength.toNat else xs.length
        let nl := pruneElems cfg xs depth length
        if cfg.stripEmpty && nl.isEmpty then .null else .arr nl
  | .str str =>
      if depthCut cfg depth then .null
      else if cfg.stripEmpty && str == "" then .null
      else if 0 < cfg.maxStringLength then
        if cfg.maxStringLength < (str.length : Int) then
          if 3 < cfg.maxStringLength then
            .str ((str.toList.take (cfg.maxStringLength.toNat - 3)).asString ++ "...")
          else .str (str.toList.take cfg.maxStringLength.toNat).asString
        else .str str
      else .str str
  | .num q =>
      if depthCut cfg depth then .null else .num q
  | .bool b =>
      if depthCut cfg depth then .null else .bool b
termination_by structural v

/-- The object loop (slimjson.go lines 790-808). -/
def pruneFields (cfg : Config) (fs : List (String × JValue)) (depth : Nat) :
    List (String × JValue) :=
  match fs with
  | [] => []
  | (k, v) :: rest =>
      if isBlocked cfg k then pruneFields cfg rest depth
      else
        let pv := prune cfg v (depth + 1)
        let q := pruneFields cfg rest depth
        if cfg.stripEmpty && isEmpty pv then q else (k, pv) :: q
termination_by structural fs

/-- The array loop (slimjson.go lines 829-838): `for i := 0; i < length`,
the counter bounding how many leading elements are visited. -/
def pruneElems (cfg : Config) (xs : List JValue) (depth : Nat) (n : Nat) :
    List JValue :=
  match xs, n with
  | _, 0 => []
  | [], _ => []
  | x :: rest, n + 1 =>
      let pv := prune cfg x (depth + 1)
      let q := pruneElems cfg rest depth n
      if cfg.stripEmpty && isEmpty pv then q else pv :: q
termination_by structural xs
end

/-- Slim of the basic engine (slimjson.go lines 761-763). -/
def Slim (cfg : Config) (data : JValue) : JValue :=
  prune cfg data 0

end Basic

/-- The basic-engine view of an advanced Config: its five shared fields. -/
def basicOf (cfg : Config) : Basic.Config :=
  { maxDepth := cfg.maxDepth
    maxListLength := cfg.maxListLength
    maxStringLength := cfg.maxStringLength
    stripEmpty := cfg.stripEmpty
    blockList := cfg.blockList }

/-!  Specification-side definitions, written from the wording of the claims
(for comparison with the source-derived functions above). -/

/-- Every node at relative depth at least `k` below (and including) this
value is Null: the depth-bound invariant of the spec. -/
def deepNullFrom (k : Nat) (v : JValue) : Bool :=
  match k, v with
  | 0, .null => true
  | 0, _ => false
  | k + 1, .arr xs => xs.all (fun x => deepNullFrom k x)
  | k + 1, .obj fs => fs.all (fun p => deepNullFrom k p.2)
  | _ + 1, _ => true
termination_by structural k

mutual
/-- The keys of object fields holding Null, in document (prune traversal)
order, at every nesting depth. -/
def nullKeys : JValue → List String
  | .obj fs => nullKeysFields fs
  | .arr xs => nullKeysElems xs
  | _ => []
termination_by structural v => v

def nullKeysFields : List (String × JValue) → List String
  | [] => []
  | (k, v) :: rest =>
      ((if isNullV v then [k] else []) ++ nullKeys v) ++ nullKeysFields rest
termination_by structural fs => fs

def nullKeysElems : List JValue → List String
  | [] => []
  | x :: rest => nullKeys x ++ nullKeysElems rest
termination_by structural xs => xs
end

mutual
/-- All string leaf values of the tree, in the statistics collector's
traversal order. -/
def strsOf : JValue → List String
  | .str s => [s]
  | .obj fs => strsOfFields fs
  | .arr xs => strsOfElems xs
  | _ => []
termination_by structural v => v

def strsOfFields : List (String × JValue) → List String
  | [] => []
  | (_, v) :: rest => strsOf v ++ strsOfFields rest
termination_by structural fs => fs

def strsOfElems : List JValue → List String
  | [] => []
  | x :: rest => strsOf x ++ strsOfElems rest
termination_by structural xs => xs
end

def firstSeenAux (seen : List String) : List String → List String
  | [] => []
  | s :: rest =>
      if seen.contains s then firstSeenAux seen rest
      else s :: firstSeenAux (s :: seen) rest

/-- The distinct members of a list in order of first occurrence. -/
def firstSeen (l : List String) : List String :=
  firstSeenAux [] l

/-- Key-set equality (mutual containment), as the spec words it. -/
def sameKeySet (ks1 ks2 : List String) : Bool :=
  ks1.all (fun k => ks2.contains k) && ks2.all (fun k => ks1.contains k)

/-- The key list of the first element of an array of objects. -/
def headKeys (arr : List JValue) : List String :=
  match arr with
  | .obj fs :: _ => fs.map (fun p => p.1)
  | _ => []

/-- The type-inference applicability condition as the claim words it: at
least 3 elements, every element an object, every object's key set equal to
the first object's. -/
def uniformObjArray (arr : List JValue) : Bool :=
  decide (3 ≤ arr.length) &&
  (match arr with
   | .obj fs0 :: _ =>
       arr.all (fun it =>
         match it with
         | .obj fs => sameKeySet (fs.map (fun p => p.1)) (fs0.map (fun p => p.1))
         | _ => false)
   | _ => false)

/-- The number-delta applicability condition as the claim words it: every
element numeric, count at least the threshold (and at least 2, so that a
first difference exists), all consecutive differences within 1e-4 of the
first, the first within 1e-4 of 1. -/
def deltaCond (cfg : Config) (arr : List JValue) : Bool :=
  match collectNumbers arr with
  | none => false
  | some ns =>
      decide (cfg.numberDeltaThreshold ≤ (arr.length : Int)) &&
      decide (2 ≤ ns.length) &&
      (let deltas := (ns.zip ns.tail).map (fun p => p.2 - p.1)
       let d0 := deltas.headD 0
       deltas.all (fun d => decide (|d - d0| ≤ 1 / 10000)) &&
       decide (|d0 - 1| < 1 / 10000))

/-- A value is fully stripped: it contains no empty string, array, object
or null anywhere below a container (the shape of strip-empty output). -/
def Stripped : JValue → Prop
  | .null => True
  | .bool _ => True
  | .num _ => True
  | .str s => s ≠ ""
  | .arr xs => xs ≠ [] ∧ ∀ x, ∀ hx : x ∈ xs,
      have : sizeOf x < 1 + sizeOf xs := by
        have := List.sizeOf_lt_of_mem hx
        omega
      Stripped x ∧ isEmpty x = false
  | .obj fs => fs ≠ [] ∧ ∀ p, ∀ hp : p ∈ fs,
      have : sizeOf p.2 < 1 + sizeOf fs := by
        have h1 := List.sizeOf_lt_of_mem hp
        obtain ⟨a, b⟩ := p
        simp only [Prod.mk.sizeOf_spec] at h1 ⊢
        omega
      Stripped p.2 ∧ isEmpty p.2 = false
termination_by v => sizeOf v

/-- The all-default Configuration of the claims: no option enabled and
decimal places at the spec default of -1 (no rounding). -/
def defaultCfg : Config := { decimalPlaces := -1 }

/-- A Configuration that enables null-compression only (decimal places at
the spec default of -1). -/
def nullCfg : Config := { nullCompression := true, decimalPlaces := -1 }

/-!  Theorems. -/

/-- A configuration whose prune pass transforms nothing: all structural and
advanced options off, except that null-compression may be on. -/
structure NeutralCfg (c : Config) : Prop where
  hMaxDepth : c.maxDepth = 0
  hMaxList : c.maxListLength = 0
  hMaxStr : c.maxStringLength = 0
  hStrip : c.stripEmpty = false
  hBlock : c.blockList = []
  hDec : c.decimalPlaces = -1
  hDedup : c.deduplicateArrays = false
  hSampleSize : c.sampleSize = 0
  hTI : c.typeInference = false
  hBC : c.boolCompression = false
  hSP : c.stringPooling = false
  hND : c.numberDeltaEncoding = false
  hEmoji : c.stripUTF8Emoji = false
  hTS : c.timestampCompression = false

theorem sampleArray_neutral (s : Slimmer) (h : NeutralCfg s.config)
    (xs : List JValue) : sampleArray s xs = xs := by
  simp [sampleArray, h.hMaxList, h.hSampleSize]

theorem pruneElems_neutral (s : Slimmer) (h : NeutralCfg s.config)
    (l : List JValue)
    (hl : ∀ x ∈ l, ∀ d : Nat, ∀ ns : List String,
      pruneV s x d ns =
        (x, ns ++ (if s.config.nullCompression then nullKeys x else []))) :
    ∀ d : Nat, ∀ ns : List String,
      pruneElems s l d ns =
        (l, ns ++ (if s.config.nullCompression then nullKeysElems l else [])) := by
  induction l with
  | nil => intro d ns; simp [pruneElems, nullKeysElems]
  | cons x rest ihl =>
      intro d ns
      have hx := hl x (List.mem_cons_self x rest)
      have hrest := ihl (fun y hy => hl y (List.mem_cons_of_mem _ hy))
      simp only [pruneElems, hx, hrest, h.hStrip, nullKeysElems,
        Bool.false_and, Bool.false_eq_true, if_false]
      by_cases hnc : s.config.nullCompression <;> simp [hnc]

theorem pruneFields_neutral (s : Slimmer) (h : NeutralCfg s.config)
    (l : List (String × JValue))
    (hl : ∀ p ∈ l, ∀ d : Nat, ∀ ns : List String,
      pruneV s p.2 d ns =
        (p.2, ns ++ (if s.config.nullCompression then nullKeys p.2 else []))) :
    ∀ d : Nat, ∀ ns : List String,
      pruneFields s l d ns =
        (l, ns ++ (if s.config.nullCompression then nullKeysFields l else [])) := by
  induction l with
  | nil => intro d ns; simp [pruneFields, nullKeysFields]
  | cons p rest ihl =>
      intro d ns
      obtain ⟨k, v⟩ := p
      have hv := hl (k, v) (List.mem_cons_self _ rest)
      have hrest := ihl (fun q hq => hl q (List.mem_cons_of_mem _ hq))
      have hblk : isBlocked s.config k = false := by
        simp [isBlocked, h.hBlock]
      simp only [pruneFields, hblk, Bool.false_eq_true, if_false, hv, hrest,
        h.hStrip, Bool.false_and, nullKeysFields]
      by_cases hnc : s.config.nullCompression <;>
        cases hv0 : isNullV v <;> simp [hnc, hv0]

theorem pruneV_neutral (s : Slimmer) (h : NeutralCfg s.config) :
    ∀ v, ∀ d : Nat, ∀ ns : List String,
      pruneV s v d ns =
        (v, ns ++ (if s.config.nullCompression then nullKeys v else [])) := by
  intro v
  induction v using JValue.inductOn with
  | hnull => intro d ns; simp [pruneV, nullKeys]
  | hbool b => intro d ns; simp [pruneV, depthCut, h.hMaxDepth, nullKeys]
  | hnum q => intro d ns; simp [pruneV, depthCut, h.hMaxDepth, h.hDec, nullKeys]
  | hstr str =>
      intro d ns
      simp [pruneV, depthCut, h.hMaxDepth, h.hStrip, pruneString, h.hEmoji,
        h.hSP, h.hTS, h.hMaxStr, nullKeys]
  | harr xs ih =>
      intro d ns
      by_cases hxs : xs.isEmpty
      · have hx0 : xs = [] := List.isEmpty_iff.mp hxs
        subst hx0
        simp [pruneV, depthCut, h.hMaxDepth, h.hStrip, nullKeys, nullKeysElems]
      · have hElems := pruneElems_neutral s h xs ih d ns
        simp [pruneV, depthCut, h.hMaxDepth, h.hStrip, h.hDedup, h.hTI, h.hND,
          hxs, hElems, sampleArray_neutral s h, applyArrayRewrites, nullKeys]
  | hobj fs ih =>
      intro d ns
      by_cases hfs : fs.isEmpty
      · have hf0 : fs = [] := List.isEmpty_iff.mp hfs
        subst hf0
        simp [pruneV, depthCut, h.hMaxDepth, h.hStrip, nullKeys, nullKeysFields]
      · have hFields := pruneFields_neutral s h fs ih d ns
        simp [pruneV, depthCut, h.hMaxDepth, h.hStrip, h.hBC, hfs, hFields,
          nullKeys]

/-- C1: slimming with the all-default Configuration (no option enabled,
decimal places -1 meaning no rounding) is the identity on every input. -/
theorem C1_default_identity : ∀ (rp : Nat → List Nat) (v : JValue),
    runSlim defaultCfg rp v = v := by
  intro rp v
  have hneut : NeutralCfg (New defaultCfg rp).config := by
    constructor <;> rfl
  have hp := pruneV_neutral _ hneut v 0 []
  have hnc : (New defaultCfg rp).config.nullCompression = false := rfl
  have hsp : (New defaultCfg rp).config.stringPooling = false := rfl
  have hed : (New defaultCfg rp).config.enumDetection = false := rfl
  rw [hnc] at hp
  simp only [if_false, List.append_nil, Bool.false_eq_true] at hp
  show (New defaultCfg rp).Slim v = v
  unfold Slimmer.Slim
  simp only [hsp, hed, Bool.or_self, Bool.false_eq_true, if_false, hp]
  cases v <;> simp [hsp, hed, hnc]

/-- C9: with null-compression enabled and strip-empty disabled (all other
options at their defaults), every object field whose value is Null is kept
with value Null, the output tree is otherwise unchanged, and the keys of
null-valued fields at every nesting depth are appended, in document order,
as the _nulls side-car when the root is an object. -/
theorem C9_null_compression_tracks_but_keeps : ∀ (rp : Nat → List Nat) (v : JValue),
    runSlim nullCfg rp v =
      match v with
      | .obj fs =>
          .obj (if 0 < (nullKeys (JValue.obj fs)).length then
                  setField fs "_nulls" (.arr ((nullKeys (JValue.obj fs)).map .str))
                else fs)
      | w => w := by
  intro rp v
  have hneut : NeutralCfg (New nullCfg rp).config := by
    constructor <;> rfl
  have hp := pruneV_neutral _ hneut v 0 []
  have hnc : (New nullCfg rp).config.nullCompression = true := rfl
  have hsp : (New nullCfg rp).config.stringPooling = false := rfl
  have hed : (New nullCfg rp).config.enumDetection = false := rfl
  rw [hnc] at hp
  simp only [if_true, List.nil_append] at hp
  show (New nullCfg rp).Slim v = _
  unfold Slimmer.Slim
  simp only [hsp, hed, Bool.or_self, Bool.false_eq_true, if_false, hp]
  cases v <;> simp [hsp, hed, hnc]

theorem New_maxDepth (cfg : Config) (rp : Nat → List Nat) :
    (New cfg rp).config.maxDepth = cfg.maxDepth := rfl

theorem New_maxListLength (cfg : Config) (rp : Nat → List Nat) :
    (New cfg rp).config.maxListLength = cfg.maxListLength := rfl

theorem New_maxStringLength (cfg : Config) (rp : Nat → List Nat) :
    (New cfg rp).config.maxStringLength = cfg.maxStringLength := rfl

theorem New_stripEmpty (cfg : Config) (rp : Nat → List Nat) :
    (New cfg rp).config.stripEmpty = cfg.stripEmpty := rfl

theorem New_blockList (cfg : Config) (rp : Nat → List Nat) :
    (New cfg rp).config.blockList = cfg.blockList := rfl

theorem New_decimalPlaces (cfg : Config) (rp : Nat → List Nat) :
    (New cfg rp).config.decimalPlaces = cfg.decimalPlaces := rfl

theorem New_deduplicateArrays (cfg : Config) (rp : Nat → List Nat) :
    (New cfg rp).config.deduplicateArrays = cfg.deduplicateArrays := rfl

theorem New_sampleStrategy (cfg : Config) (rp : Nat → List Nat) :
    (New cfg rp).config.sampleStrategy = cfg.sampleStrategy := rfl

theorem New_sampleSize (cfg : Config) (rp : Nat → List Nat) :
    (New cfg rp).config.sampleSize = cfg.sampleSize := rfl

theorem New_nullCompression (cfg : Config) (rp : Nat → List Nat) :
    (New cfg rp).config.nullCompression = cfg.nullCompression := rfl

theorem New_typeInference (cfg : Config) (rp : Nat → List Nat) :
    (New cfg rp).config.typeInference = cfg.typeInference := rfl

theorem New_boolCompression (cfg : Config) (rp : Nat → List Nat) :
    (New cfg rp).config.boolCompression = cfg.boolCompression := rfl

theorem New_timestampCompression (cfg : Config) (rp : Nat → List Nat) :
    (New cfg rp).config.timestampCompression = cfg.timestampCompression := rfl

theorem New_stringPooling (cfg : Config) (rp : Nat → List Nat) :
    (New cfg rp).config.stringPooling = cfg.stringPooling := rfl

theorem New_numberDeltaEncoding (cfg : Config) (rp : Nat → List Nat) :
    (New cfg rp).config.numberDeltaEncoding = cfg.numberDeltaEncoding := rfl

theorem New_enumDetection (cfg : Config) (rp : Nat → List Nat) :
    (New cfg rp).config.enumDetection = cfg.enumDetection := rfl

theorem New_stripUTF8Emoji (cfg : Config) (rp : Nat → List Nat) :
    (New cfg rp).config.stripUTF8Emoji = cfg.stripUTF8Emoji := rfl

theorem length_asString (l : List Char) : (List.asString l).length = l.length := rfl

theorem length_toList (s : String) : s.toList.length = s.length := rfl

/-- Reduction of one Slim call on a string input to the string pipeline,
for a configuration with no statistics pass, no depth limit and no
strip-empty. -/
theorem runSlim_str_eq (cfg : Config) (rp : Nat → List Nat) (s : String)
    (X : String)
    (hsp : cfg.stringPooling = false) (hed : cfg.enumDetection = false)
    (hmd : cfg.maxDepth = 0) (hse : cfg.stripEmpty = false)
    (h : pruneString (New cfg rp) s = .str X) :
    runSlim cfg rp (.str s) = .str X := by
  unfold runSlim Slimmer.Slim
  simp only [New_stringPooling, New_enumDetection, hsp, hed, Bool.or_self,
    Bool.false_eq_true, if_false]
  simp only [pruneV, depthCut, New_maxDepth, New_stripEmpty, hmd, hse, h]
  simp

/-- C6: string truncation.  For max-string-length L > 3 and a string longer
than L code points, the output is the first L-3 code points followed by
three periods, so it has length exactly L and ends in "..."; for
0 < L <= 3 exactly the first L code points are kept with no ellipsis; a
string of at most L code points passes through unchanged. -/
theorem C6_string_truncation : ∀ (L : Nat) (s : String) (rp : Nat → List Nat),
    (3 < L → L < s.length →
       runSlim { maxStringLength := (L : Int) } rp (.str s)
         = .str ((s.toList.take (L - 3)).asString ++ "...")
       ∧ ((s.toList.take (L - 3)).asString ++ "...").length = L
       ∧ ∃ w, ((s.toList.take (L - 3)).asString ++ "...") = w ++ "...")
    ∧ (0 < L → L ≤ 3 → L < s.length →
       runSlim { maxStringLength := (L : Int) } rp (.str s)
         = .str (s.toList.take L).asString)
    ∧ (s.length ≤ L →
       runSlim { maxStringLength := (L : Int) } rp (.str s) = .str s) := by
  intro L s rp
  have hms : (New { maxStringLength := (L : Int) } rp).config.maxStringLength
      = (L : Int) := rfl
  have hemo : (New { maxStringLength := (L : Int) } rp).config.stripUTF8Emoji
      = false := rfl
  have hsp0 : (New { maxStringLength := (L : Int) } rp).config.stringPooling
      = false := rfl
  have hts : (New { maxStringLength := (L : Int) } rp).config.timestampCompression
      = false := rfl
  refine ⟨?_, ?_, ?_⟩
  · intro h3L hLs
    have h0 : (0 : Int) < (L : Int) := by exact_mod_cast (by omega : 0 < L)
    have hlt : (L : Int) < (s.length : Int) := by exact_mod_cast hLs
    have h3 : (3 : Int) < (L : Int) := by exact_mod_cast h3L
    have e1 : pruneString (New { maxStringLength := (L : Int) } rp) s
        = .str ((s.toList.take (L - 3)).asString ++ "...") := by
      simp [pruneString, hms, hemo, hsp0, hts, h0, hlt, h3]
    refine ⟨runSlim_str_eq _ _ _ _ rfl rfl rfl rfl e1, ?_, ?_⟩
    · rw [String.length_append, length_asString, List.length_take, length_toList]
      have : ("..." : String).length = 3 := rfl
      omega
    · exact ⟨(s.toList.take (L - 3)).asString, rfl⟩
  · intro h0L hL3 hLs
    have h0 : (0 : Int) < (L : Int) := by exact_mod_cast h0L
    have hlt : (L : Int) < (s.length : Int) := by exact_mod_cast hLs
    have h3 : ¬ (3 : Int) < (L : Int) := by
      simp only [not_lt]
      exact_mod_cast hL3
    have e1 : pruneString (New { maxStringLength := (L : Int) } rp) s
        = .str (s.toList.take L).asString := by
      simp [pruneString, hms, hemo, hsp0, hts, h0, hlt, h3]
    exact runSlim_str_eq _ _ _ _ rfl rfl rfl rfl e1
  · intro hsL
    have hlt : ¬ (L : Int) < (s.length : Int) := by
      simp only [not_lt]
      exact_mod_cast hsL
    have e1 : pruneString (New { maxStringLength := (L : Int) } rp) s = .str s := by
      by_cases h0 : (0 : Int) < (L : Int) <;>
        simp [pruneString, hms, hemo, hsp0, hts, h0, hlt]
    exact runSlim_str_eq _ _ _ _ rfl rfl rfl rfl e1

/-- Witness for C6 at L = 5 and the 8-code-point string "abcdefgh". -/
theorem C6_string_truncation_witness :
    3 < 5 ∧ 5 < "abcdefgh".length ∧
      runSlim { maxStringLength := 5 } idPerm (.str "abcdefgh") = .str "ab..." :=
  ⟨by decide, by decide,
    ((C6_string_truncation 5 "abcdefgh" idPerm).1 (by decide) (by decide)).1.trans
      (by rfl)⟩

/-- The range object produced by number-delta encoding: the inclusive
endpoints are the first and last array elements. -/
def rangeObj (arr : List JValue) : JValue :=
  .obj [("_range", .arr [arr.headD .null, arr.getLastD .null])]

theorem collectNumbers_eq_map : ∀ (arr : List JValue) (ns : List ℚ),
    collectNumbers arr = some ns → arr = ns.map JValue.num := by
  intro arr
  induction arr with
  | nil => intro ns h; simp [collectNumbers] at h; simp [← h]
  | cons x rest ih =>
      intro ns h
      cases x with
      | num q =>
          simp only [collectNumbers] at h
          cases hrest : collectNumbers rest with
          | none => rw [hrest] at h; simp at h
          | some ns' =>
              rw [hrest] at h
              have hq : q :: ns' = ns := by simpa using h
              subst hq
              simp [ih ns' hrest]
      | null => simp [collectNumbers] at h
      | bool b => simp [collectNumbers] at h
      | str s => simp [collectNumbers] at h
      | arr xs => simp [collectNumbers] at h
      | obj fs => simp [collectNumbers] at h

theorem headD_map_num (ns : List ℚ) (h : ns ≠ []) :
    (ns.map JValue.num).headD .null = .num (ns.headD 0) := by
  cases ns with
  | nil => exact absurd rfl h
  | cons a l => rfl

theorem getLastD_map_num : ∀ (ns : List ℚ), ns ≠ [] →
    (ns.map JValue.num).getLastD .null = .num (ns.getLastD 0) := by
  intro ns
  induction ns with
  | nil => intro h; exact absurd rfl h
  | cons a l ih =>
      intro _
      cases l with
      | nil => rfl
      | cons b m =>
          have := ih (by simp)
          simpa [List.getLastD_cons] using this

/-- C5: with number-delta enabled, an array is replaced by a _range object
holding its first and last elements exactly when every element is numeric,
the element count is at least the threshold (and at least 2, so a first
difference exists), all consecutive differences are within 1e-4 of the
first (the source compares non-strictly), and the first difference is
within 1e-4 of 1 (strictly); otherwise the array is unchanged.  The second
conjunct is the claim's example: [100..109] with threshold 5 becomes
a range object from 100 to 109. -/
theorem C5_number_delta :
    (∀ (cfg : Config) (arr : List JValue), cfg.numberDeltaEncoding = true →
      applyNumberDelta cfg arr =
        if deltaCond cfg arr then rangeObj arr else .arr arr)
    ∧ runSlim { numberDeltaEncoding := true, numberDeltaThreshold := 5,
                decimalPlaces := -1 } idPerm
        (.arr [.num 100, .num 101, .num 102, .num 103, .num 104, .num 105,
               .num 106, .num 107, .num 108, .num 109])
        = .obj [("_range", .arr [.num 100, .num 109])] := by
  constructor
  · intro cfg arr hflag
    by_cases hthr : (arr.length : Int) < cfg.numberDeltaThreshold
    · have hc : deltaCond cfg arr = false := by
        unfold deltaCond
        cases hn : collectNumbers arr with
        | none => rfl
        | some ns => simp [not_le.mpr hthr]
      simp [applyNumberDelta, hflag, hthr, hc]
    · cases hn : collectNumbers arr with
      | none => simp [applyNumberDelta, deltaCond, hflag, hthr, hn]
      | some ns =>
          have harr := collectNumbers_eq_map arr ns hn
          by_cases hlen : ns.length < 2
          · have hc : deltaCond cfg arr = false := by
              simp [deltaCond, hn, not_le.mpr hlen]
            simp [applyNumberDelta, hflag, hthr, hn, hlen, hc]
          · have hne : ns ≠ [] := by
              intro h0; rw [h0] at hlen; simp at hlen
            have hc : deltaCond cfg arr =
                (((ns.zip ns.tail).map (fun p => p.2 - p.1)).all
                    (fun d => decide (|d - ((ns.zip ns.tail).map
                        (fun p => p.2 - p.1)).headD 0| ≤ 1 / 10000)) &&
                  decide (|((ns.zip ns.tail).map (fun p => p.2 - p.1)).headD 0
                      - 1| < 1 / 10000)) := by
              simp [deltaCond, hn, not_lt.mp hthr, not_lt.mp hlen]
            rw [applyNumberDelta]
            simp only [hflag, Bool.not_true, Bool.false_eq_true, if_false,
              hthr, hn, hlen]
            rw [hc]
            refine if_congr Iff.rfl ?_ rfl
            simp only [rangeObj, harr, headD_map_num ns hne, getLastD_map_num ns hne]
  · with_unfolding_all rfl

/-- Witness for C5: a concrete Configuration with number-delta enabled and
a concrete non-sequential array, left unchanged. -/
theorem C5_number_delta_witness :
    applyNumberDelta { numberDeltaEncoding := true, numberDeltaThreshold := 2 }
        [.num 1, .num 5, .num 9]
      = .arr [.num 1, .num 5, .num 9] := by
  have h := C5_number_delta.1
    { numberDeltaEncoding := true, numberDeltaThreshold := 2 }
    [.num 1, .num 5, .num 9] rfl
  rw [h]
  with_unfolding_all rfl

theorem mem_of_subset_len {fk ks : List String} (h1 : fk.Nodup) (h2 : ks.Nodup)
    (hlen : ks.length = fk.length) (hsub : ∀ k ∈ fk, k ∈ ks) :
    ∀ k ∈ ks, k ∈ fk := by
  have hfin : fk.toFinset ⊆ ks.toFinset := by
    intro x hx
    exact List.mem_toFinset.mpr (hsub x (List.mem_toFinset.mp hx))
  have hcard : ks.toFinset.card ≤ fk.toFinset.card := by
    rw [List.toFinset_card_of_nodup h1, List.toFinset_card_of_nodup h2, hlen]
  have heq : fk.toFinset = ks.toFinset := Finset.eq_of_subset_of_card_le hfin hcard
  intro k hk
  have : k ∈ fk.toFinset := heq ▸ List.mem_toFinset.mpr hk
  exact List.mem_toFinset.mp this

theorem len_of_mutual_subset {fk ks : List String} (h1 : fk.Nodup) (h2 : ks.Nodup)
    (hks : ∀ k ∈ ks, k ∈ fk) (hfk : ∀ k ∈ fk, k ∈ ks) :
    ks.length = fk.length := by
  have heq : fk.toFinset = ks.toFinset := by
    apply Finset.Subset.antisymm
    · intro x hx
      exact List.mem_toFinset.mpr (hfk x (List.mem_toFinset.mp hx))
    · intro x hx
      exact List.mem_toFinset.mpr (hks x (List.mem_toFinset.mp hx))
  rw [← List.toFinset_card_of_nodup h1, ← List.toFinset_card_of_nodup h2, heq]

/-- For objects with duplicate-free key lists (as every Go map is), the
source's key check (entry-count equality plus containment of the first
element's keys) is exactly key-set equality. -/
theorem keysMatch_eq_sameKeySet (fk ks : List String) (h1 : fk.Nodup)
    (h2 : ks.Nodup) : keysMatch fk ks = sameKeySet ks fk := by
  rcases hkm : keysMatch fk ks with _ | _ <;>
    rcases hsk : sameKeySet ks fk with _ | _
  · rfl
  · exfalso
    simp only [sameKeySet, Bool.and_eq_true, List.all_eq_true] at hsk
    obtain ⟨ha, hb⟩ := hsk
    have hks : ∀ k ∈ ks, k ∈ fk := by
      intro k hk
      simpa using ha k hk
    have hfk : ∀ k ∈ fk, k ∈ ks := by
      intro k hk
      simpa using hb k hk
    have hlen := len_of_mutual_subset h1 h2 hks hfk
    have : keysMatch fk ks = true := by
      simp only [keysMatch, Bool.and_eq_true, List.all_eq_true, beq_iff_eq]
      exact ⟨hlen, fun k hk => by simpa using hfk k hk⟩
    rw [hkm] at this
    exact Bool.false_ne_true this
  · exfalso
    simp only [keysMatch, Bool.and_eq_true, List.all_eq_true, beq_iff_eq] at hkm
    obtain ⟨hlen, hfk⟩ := hkm
    have hfk' : ∀ k ∈ fk, k ∈ ks := fun k hk => by simpa using hfk k hk
    have hks := mem_of_subset_len h1 h2 hlen hfk'
    have : sameKeySet ks fk = true := by
      simp only [sameKeySet, Bool.and_eq_true, List.all_eq_true]
      exact ⟨fun k hk => by simpa using hks k hk,
             fun k hk => by simpa using hfk' k hk⟩
    rw [hsk] at this
    exact Bool.false_ne_true this
  · rfl

theorem sameKeySet_self (ks : List String) : sameKeySet ks ks = true := by
  simp only [sameKeySet, Bool.and_eq_true, List.all_eq_true]
  exact ⟨fun k hk => by simpa using hk, fun k hk => by simpa using hk⟩

theorem all_congr {α : Type} (l : List α) (f g : α → Bool)
    (h : ∀ x ∈ l, f x = g x) : l.all f = l.all g := by
  induction l with
  | nil => rfl
  | cons a t ih =>
      simp only [List.all_cons, h a (List.mem_cons_self a t),
        ih (fun x hx => h x (List.mem_cons_of_mem _ hx))]

/-- C3: with type-inference enabled, an array is rewritten to a
_schema/_data object exactly when it has at least 3 elements, every element
is an object, and every object has the same key set as the first object
(stated for duplicate-free key lists, which every Go map has); on match,
_schema holds the first element's keys in their stored order and each _data
row holds that element's values in schema order; on mismatch the array is
returned unchanged. -/
theorem C3_type_inference : ∀ (cfg : Config) (arr : List JValue),
    cfg.typeInference = true →
    (∀ fs, JValue.obj fs ∈ arr → (fs.map (fun p : String × JValue => p.1)).Nodup) →
    applyTypeInference cfg arr =
      if uniformObjArray arr then
        .obj [("_schema", .arr ((headKeys arr).map .str)),
              ("_data", .arr (arr.map (fun it =>
                .arr ((headKeys arr).map (fun k => lookupD it k)))))]
      else .arr arr := by
  intro cfg arr hflag hnodup
  by_cases hlen : arr.length < 3
  · have hu : uniformObjArray arr = false := by
      unfold uniformObjArray
      simp [not_le.mpr hlen]
    rw [applyTypeInference.eq_def, hflag]
    simp only [Bool.not_true, Bool.false_eq_true, if_false]
    rw [if_pos hlen, hu]
    simp
  · cases arr with
    | nil => simp at hlen
    | cons first rest =>
        cases first with
        | obj fs0 =>
            have hfs0 : (fs0.map (fun p : String × JValue => p.1)).Nodup :=
              hnodup fs0 (List.mem_cons_self _ _)
            have helem : ∀ it ∈ rest,
                (fun it : JValue =>
                  match it with
                  | JValue.obj fs =>
                      keysMatch (fs0.map (fun p : String × JValue => p.1)) (fs.map (fun p : String × JValue => p.1))
                  | _ => false) it
                = (fun it : JValue =>
                  match it with
                  | JValue.obj fs =>
                      sameKeySet (fs.map (fun p : String × JValue => p.1)) (fs0.map (fun p : String × JValue => p.1))
                  | _ => false) it := by
              intro it hit
              cases it with
              | obj fs =>
                  exact keysMatch_eq_sameKeySet _ _ hfs0
                    (hnodup fs (List.mem_cons_of_mem _ hit))
              | null => rfl
              | bool b => rfl
              | num q => rfl
              | str s => rfl
              | arr xs => rfl
            have hcond : (rest.all (fun it : JValue =>
                match it with
                | JValue.obj fs =>
                    keysMatch (fs0.map (fun p : String × JValue => p.1)) (fs.map (fun p : String × JValue => p.1))
                | _ => false))
                = uniformObjArray (JValue.obj fs0 :: rest) := by
              have h3 : 3 ≤ (JValue.obj fs0 :: rest).length := not_lt.mp hlen
              rw [all_congr rest _ _ helem]
              simp only [List.length_cons] at h3
              simp [uniformObjArray, List.all_cons, sameKeySet_self, h3]
            rcases hall : (rest.all (fun it : JValue =>
                match it with
                | JValue.obj fs =>
                    keysMatch (fs0.map (fun p : String × JValue => p.1)) (fs.map (fun p : String × JValue => p.1))
                | _ => false)) with _ | _
            · have hu : uniformObjArray (JValue.obj fs0 :: rest) = false := by
                rw [← hcond, hall]
              rw [applyTypeInference.eq_def, hflag]
              simp only [Bool.not_true, Bool.false_eq_true, if_false]
              rw [if_neg hlen]
              simp [hu, hall]
            · have hu : uniformObjArray (JValue.obj fs0 :: rest) = true := by
                rw [← hcond, hall]
              rw [applyTypeInference.eq_def, hflag]
              simp only [Bool.not_true, Bool.false_eq_true, if_false]
              rw [if_neg hlen]
              simp [hu, hall, headKeys]
        | null =>
            have hu : uniformObjArray (JValue.null :: rest) = false := by
              simp [uniformObjArray]
            rw [applyTypeInference.eq_def, hflag]
            simp only [Bool.not_true, Bool.false_eq_true, if_false]
            rw [if_neg hlen]
            simp [hu]
        | bool b =>
            have hu : uniformObjArray (JValue.bool b :: rest) = false := by
              simp [uniformObjArray]
            rw [applyTypeInference.eq_def, hflag]
            simp only [Bool.not_true, Bool.false_eq_true, if_false]
            rw [if_neg hlen]
            simp [hu]
        | num q =>
            have hu : uniformObjArray (JValue.num q :: rest) = false := by
              simp [uniformObjArray]
            rw [applyTypeInference.eq_def, hflag]
            simp only [Bool.not_true, Bool.false_eq_true, if_false]
            rw [if_neg hlen]
            simp [hu]
        | str s =>
            have hu : uniformObjArray (JValue.str s :: rest) = false := by
              simp [uniformObjArray]
            rw [applyTypeInference.eq_def, hflag]
            simp only [Bool.not_true, Bool.false_eq_true, if_false]
            rw [if_neg hlen]
            simp [hu]
        | arr xs =>
            have hu : uniformObjArray (JValue.arr xs :: rest) = false := by
              simp [uniformObjArray]
            rw [applyTypeInference.eq_def, hflag]
            simp only [Bool.not_true, Bool.false_eq_true, if_false]
            rw [if_neg hlen]
            simp [hu]

/-- Witness for C3 at the spec's example: three uniform objects are
rewritten to schema plus rows. -/
theorem C3_type_inference_witness :
    applyTypeInference { typeInference := true }
        [ .obj [("id", .num 1), ("name", .str "Alice"), ("age", .num 30)],
          .obj [("id", .num 2), ("name", .str "Bob"), ("age", .num 25)],
          .obj [("id", .num 3), ("name", .str "Charlie"), ("age", .num 35)]]
      = .obj [("_schema", .arr [.str "id", .str "name", .str "age"]),
              ("_data", .arr [ .arr [.num 1, .str "Alice", .num 30],
                               .arr [.num 2, .str "Bob", .num 25],
                               .arr [.num 3, .str "Charlie", .num 35]])] := by
  have h := C3_type_inference { typeInference := true }
    [ .obj [("id", .num 1), ("name", .str "Alice"), ("age", .num 30)],
      .obj [("id", .num 2), ("name", .str "Bob"), ("age", .num 25)],
      .obj [("id", .num 3), ("name", .str "Charlie"), ("age", .num 35)]]
    rfl (by
      intro fs hfs
      simp only [List.mem_cons, List.not_mem_nil, or_false] at hfs
      rcases hfs with h1 | h1 | h1 <;>
        · injection h1 with h2
          subst h2
          decide)
  rw [h]
  rfl

/-- The boolean value of a JSON value, false for non-booleans. -/
def getBoolD : JValue → Bool
  | .bool b => b
  | _ => false

/-- The boolean-valued fields of an object, in stored order. -/
def boolPairs (m : List (String × JValue)) : List (String × JValue) :=
  m.filter (fun p => isBoolV p.2)

/-- The bit packing of applyBoolCompression over the ordered boolean
values: bit i set iff the i-th value is true, each shifted bit taken
modulo 2^64 as on a 64-bit Go int. -/
def packFlags (bs : List Bool) : Nat :=
  bs.enum.foldl (fun acc p => if p.2 then acc ||| ((1 <<< p.1) % 2 ^ 64) else acc) 0

theorem snd_mem_of_mem_enumFrom {α : Type} :
    ∀ (l : List α) (j : Nat) (q : Nat × α), q ∈ l.enumFrom j → q.2 ∈ l := by
  intro l
  induction l with
  | nil => intro j q h; simp [List.enumFrom] at h
  | cons a t ih =>
      intro j q h
      simp only [List.enumFrom, List.mem_cons] at h
      rcases h with h | h
      · subst h; exact List.mem_cons_self _ _
      · exact List.mem_cons_of_mem _ (ih (j + 1) q h)

theorem lookup_of_mem_nodup :
    ∀ (m : List (String × JValue)), (m.map Prod.fst).Nodup →
      ∀ (k : String) (v : JValue), (k, v) ∈ m → m.lookup k = some v := by
  intro m
  induction m with
  | nil => intro _ k v h; simp at h
  | cons a t ih =>
      intro hnd k v hm
      obtain ⟨a1, a2⟩ := a
      simp only [List.map_cons, List.nodup_cons] at hnd
      simp only [List.mem_cons] at hm
      rcases hm with h | h
      · injection h with h1 h2
        subst h1; subst h2
        simp [List.lookup]
      · have hk : k ≠ a1 := by
          intro he
          subst he
          exact hnd.1 (List.mem_map.mpr ⟨(k, v), h, rfl⟩)
        have hbeq : (k == a1) = false := beq_eq_false_iff_ne.mpr hk
        simp only [List.lookup, hbeq]
        exact ih hnd.2 k v h

theorem eq_of_mem_nodup_keys :
    ∀ (m : List (String × JValue)), (m.map Prod.fst).Nodup →
      ∀ p q : String × JValue, p ∈ m → q ∈ m → p.1 = q.1 → p = q := by
  intro m
  induction m with
  | nil => intro _ p q hp; simp at hp
  | cons a t ih =>
      intro hnd p q hp hq hk
      simp only [List.map_cons, List.nodup_cons] at hnd
      simp only [List.mem_cons] at hp hq
      rcases hp with hp | hp <;> rcases hq with hq | hq
      · rw [hp, hq]
      · exfalso
        subst hp
        exact hnd.1 (List.mem_map.mpr ⟨q, hq, hk.symm⟩)
      · exfalso
        subst hq
        exact hnd.1 (List.mem_map.mpr ⟨p, hp, hk⟩)
      · exact ih hnd.2 p q hp hq hk

theorem packFlags_step_testBit (acc j k : Nat) :
    (acc ||| ((1 <<< j) % 2 ^ 64)).testBit k
      = (acc.testBit k || decide (j = k ∧ k < 64)) := by
  rw [Nat.testBit_or]
  by_cases hj : j < 64
  · have hmod : (1 <<< j) % 2 ^ 64 = 1 <<< j := by
      apply Nat.mod_eq_of_lt
      rw [Nat.shiftLeft_eq, one_mul]
      exact Nat.pow_lt_pow_right (by omega) hj
    rw [hmod, Nat.shiftLeft_eq, one_mul]
    by_cases hjk : j = k
    · subst hjk
      simp [Nat.testBit_two_pow_self, hj]
    · have h0 : (2 ^ j).testBit k = false := Nat.testBit_two_pow_of_ne hjk
      simp [h0, hjk]
  · have hmod : (1 <<< j) % 2 ^ 64 = 0 := by
      have h2 : (2 : Nat) ^ j = 2 ^ 64 * 2 ^ (j - 64) := by
        rw [← pow_add]
        congr 1
        omega
      rw [Nat.shiftLeft_eq, one_mul, h2, Nat.mul_mod_right]
    have hdec : decide (j = k ∧ k < 64) = false := by
      simp only [decide_eq_false_iff_not, not_and]
      omega
    rw [hmod]
    simp [Nat.zero_testBit, hdec]

theorem packFlags_aux_testBit :
    ∀ (bs : List Bool) (j acc k : Nat),
      ((List.enumFrom j bs).foldl
          (fun acc p => if p.2 then acc ||| ((1 <<< p.1) % 2 ^ 64) else acc)
          acc).testBit k
        = (acc.testBit k ||
            (decide (j ≤ k ∧ k < 64) && bs.getD (k - j) false)) := by
  intro bs
  induction bs with
  | nil =>
      intro j acc k
      simp [List.enumFrom]
  | cons b tl ih =>
      intro j acc k
      simp only [List.enumFrom, List.foldl_cons]
      rw [ih (j + 1)]
      cases b
      · simp only [Bool.false_eq_true, if_false]
        rcases Nat.lt_trichotomy k j with h | h | h
        · have d1 : decide (j + 1 ≤ k ∧ k < 64) = false := by
            simp only [decide_eq_false_iff_not, not_and]; omega
          have d2 : decide (j ≤ k ∧ k < 64) = false := by
            simp only [decide_eq_false_iff_not, not_and]; omega
          simp [d1, d2]
        · subst h
          have d1 : decide (k + 1 ≤ k ∧ k < 64) = false := by
            simp only [decide_eq_false_iff_not, not_and]; omega
          simp [d1, Nat.sub_self]
        · have hsub : k - j = (k - (j + 1)) + 1 := by omega
          have d12 : decide (j + 1 ≤ k ∧ k < 64) = decide (j ≤ k ∧ k < 64) := by
            by_cases hk : k < 64 <;> simp [hk] <;> omega
          rw [hsub, d12]
          simp [List.getD_cons_succ]
      · simp only [if_true]
        rw [packFlags_step_testBit]
        rcases Nat.lt_trichotomy k j with h | h | h
        · have d0 : decide (j = k ∧ k < 64) = false := by
            simp only [decide_eq_false_iff_not, not_and]; omega
          have d1 : decide (j + 1 ≤ k ∧ k < 64) = false := by
            simp only [decide_eq_false_iff_not, not_and]; omega
          have d2 : decide (j ≤ k ∧ k < 64) = false := by
            simp only [decide_eq_false_iff_not, not_and]; omega
          simp [d0, d1, d2]
        · subst h
          have d1 : decide (k + 1 ≤ k ∧ k < 64) = false := by
            simp only [decide_eq_false_iff_not, not_and]; omega
          have d0 : decide (k = k ∧ k < 64) = decide (k < 64) := by
            by_cases hk : k < 64 <;> simp [hk]
          have d2 : decide (k ≤ k ∧ k < 64) = decide (k < 64) := by
            by_cases hk : k < 64 <;> simp [hk]
          rw [d0, d1, d2]
          simp [Nat.sub_self, Bool.or_assoc]
        · have hsub : k - j = (k - (j + 1)) + 1 := by omega
          have d0 : decide (j = k ∧ k < 64) = false := by
            simp only [decide_eq_false_iff_not, not_and]; omega
          have d12 : decide (j + 1 ≤ k ∧ k < 64) = decide (j ≤ k ∧ k < 64) := by
            by_cases hk : k < 64 <;> simp [hk] <;> omega
          rw [hsub, d0, d12]
          simp [List.getD_cons_succ]

/-- Bit characterization of the flags packing: bit i of the packed pattern
is set exactly when i is below the 64-bit width and the i-th boolean is
true; higher key positions are lost to the wraparound of the shift. -/
theorem packFlags_testBit (bs : List Bool) (k : Nat) :
    (packFlags bs).testBit k = (decide (k < 64) && bs.getD k false) := by
  unfold packFlags
  rw [show bs.enum = List.enumFrom 0 bs from rfl, packFlags_aux_testBit]
  simp [Nat.zero_testBit]

theorem lookupIsTrue_of_filter (m : List (String × JValue))
    (hnodup : (m.map Prod.fst).Nodup) :
    ∀ q ∈ boolPairs m, lookupIsTrue m q.1 = getBoolD q.2 := by
  intro q hqf
  obtain ⟨hqm, hqb⟩ := List.mem_filter.mp hqf
  have hl : m.lookup q.1 = some q.2 :=
    lookup_of_mem_nodup m hnodup q.1 q.2 hqm
  unfold lookupIsTrue
  rw [hl]
  cases hv : q.2 with
  | bool b => rfl
  | null => rw [hv] at hqb; simp [isBoolV] at hqb
  | num x => rw [hv] at hqb; simp [isBoolV] at hqb
  | str x => rw [hv] at hqb; simp [isBoolV] at hqb
  | arr x => rw [hv] at hqb; simp [isBoolV] at hqb
  | obj x => rw [hv] at hqb; simp [isBoolV] at hqb

theorem foldFlags_eq (m : List (String × JValue)) :
    ∀ (bp : List (String × JValue)) (j : Nat) (acc : Nat),
      (∀ q ∈ bp, lookupIsTrue m q.1 = getBoolD q.2) →
      (List.enumFrom j (bp.map (fun p => p.1))).foldl
          (fun acc p =>
            if lookupIsTrue m p.2 then acc ||| ((1 <<< p.1) % 2 ^ 64) else acc) acc
        = (List.enumFrom j (bp.map (fun p => getBoolD p.2))).foldl
          (fun acc p => if p.2 then acc ||| ((1 <<< p.1) % 2 ^ 64) else acc) acc := by
  intro bp
  induction bp with
  | nil => intro j acc _; rfl
  | cons q rest ih =>
      intro j acc hq
      simp only [List.map_cons, List.enumFrom, List.foldl_cons]
      rw [hq q (List.mem_cons_self _ _),
        ih (j + 1) _ (fun r hr => hq r (List.mem_cons_of_mem _ hr))]

theorem contains_boolKeys (m : List (String × JValue))
    (hnodup : (m.map Prod.fst).Nodup) :
    ∀ p ∈ m, ((boolPairs m).map (fun p => p.1)).contains p.1 = isBoolV p.2 := by
  intro p hp
  cases hb : isBoolV p.2
  · have hnot : p.1 ∉ (boolPairs m).map (fun p => p.1) := by
      intro hmem
      obtain ⟨q, hqf, hq1⟩ := List.mem_map.mp hmem
      obtain ⟨hqm, hqb⟩ := List.mem_filter.mp hqf
      have heq := eq_of_mem_nodup_keys m hnodup q p hqm hp hq1
      rw [heq] at hqb
      rw [hb] at hqb
      exact Bool.false_ne_true hqb
    simpa using hnot
  · have hmem : p.1 ∈ (boolPairs m).map (fun p => p.1) :=
      List.mem_map.mpr ⟨p, List.mem_filter.mpr ⟨hp, hb⟩, rfl⟩
    simpa using hmem

/-- C8 (amended): with bool-compression enabled, on an object with
duplicate-free keys (as every Go map has): if fewer than 3 keys hold plain
booleans, the object is unchanged; otherwise all boolean keys are removed
and the map assignment writes a single _bools field (overwriting any
pre-existing non-boolean _bools entry) carrying the ordered list of those
keys and a packed integer whose bit i, for bit positions below the 64-bit
int width, is set iff the i-th boolean key held true (positions 64 and
beyond are lost to shift wraparound, which is what forces the width bound;
the stored number is the signed 64-bit reading of the bit pattern). -/
theorem C8_bool_compression : ∀ (cfg : Config) (m : List (String × JValue)),
    cfg.boolCompression = true →
    (m.map Prod.fst).Nodup →
    (applyBoolCompression cfg m =
      if (boolPairs m).length < 3 then m
      else setField (m.filter (fun p => !isBoolV p.2)) "_bools"
        (.obj
            [("flags", .num ((int64OfBits (packFlags
                ((boolPairs m).map (fun p => getBoolD p.2))) : Int) : ℚ)),
             ("keys", .arr (((boolPairs m).map (fun p => p.1)).map .str))]))
    ∧ ∀ i, (packFlags ((boolPairs m).map (fun p => getBoolD p.2))).testBit i
        = (decide (i < 64) &&
            ((boolPairs m).map (fun p => getBoolD p.2)).getD i false) := by
  intro cfg m hflag hnodup
  refine ⟨?_, fun i => packFlags_testBit _ i⟩
  have hfilter : m.filter
      (fun p => !((boolPairs m).map (fun p => p.1)).contains p.1)
      = m.filter (fun p => !isBoolV p.2) := by
    apply List.filter_congr
    intro p hp
    rw [contains_boolKeys m hnodup p hp]
  have hfold : ((boolPairs m).map (fun p => p.1)).enum.foldl
        (fun acc p =>
          if lookupIsTrue m p.2 then acc ||| ((1 <<< p.1) % 2 ^ 64) else acc) 0
      = packFlags ((boolPairs m).map (fun p => getBoolD p.2)) :=
    foldFlags_eq m (boolPairs m) 0 0 (lookupIsTrue_of_filter m hnodup)
  rw [applyBoolCompression.eq_def]
  simp only [hflag, Bool.not_true, Bool.false_eq_true, if_false]
  show (if ((boolPairs m).map (fun p => p.1)).length < 3 then m else _) = _
  rw [List.length_map]
  refine if_congr Iff.rfl rfl ?_
  simp only [boolPairs] at hfold hfilter
  rw [hfold, hfilter]
  simp only [boolPairs]

/-- Witness for C8 at a three-boolean object that also holds a stale
non-boolean _bools field: the map assignment overwrites it in place, so the
output has a single _bools entry. -/
theorem C8_bool_compression_witness :
    applyBoolCompression { boolCompression := true }
        [("_bools", .str "stale"), ("a", .bool true), ("b", .bool true),
         ("c", .bool false)]
      = [("_bools", .obj [("flags", .num 3),
                          ("keys", .arr [.str "a", .str "b", .str "c"])])] := by
  have h := (C8_bool_compression { boolCompression := true }
    [("_bools", .str "stale"), ("a", .bool true), ("b", .bool true),
     ("c", .bool false)] rfl (by decide)).1
  rw [h]
  with_unfolding_all rfl

/-- An object with 65 boolean keys, the 65th (bit position 64) true and all
others false. -/
def m65 : List (String × JValue) :=
  (List.range 65).map
    (fun i => (String.mk (List.replicate (i + 1) 'a'), JValue.bool (decide (i = 64))))

/-- Counterexample to C8 as stated: for an object with 65 boolean keys the
65th key is true, yet the packed flags integer is 0 (the shift 1 << 64
wraps to zero on a 64-bit int), so its bit 64 is not set even though the
65th key held true. -/
theorem C8_counterexample :
    applyBoolCompression { boolCompression := true } m65
      = [("_bools", .obj
          [("flags", .num ((int64OfBits (packFlags
              ((boolPairs m65).map (fun p => getBoolD p.2))) : Int) : ℚ)),
           ("keys", .arr (((boolPairs m65).map (fun p => p.1)).map .str))])]
    ∧ packFlags ((boolPairs m65).map (fun p => getBoolD p.2)) = 0
    ∧ ((boolPairs m65).map (fun p => getBoolD p.2)).getD 64 false = true
    ∧ (packFlags ((boolPairs m65).map (fun p => getBoolD p.2))).testBit 64 = false := by
  refine ⟨?_, rfl, rfl, rfl⟩
  with_unfolding_all rfl

/-- The pooling Configuration of C4: string pooling on, a given minimum
occurrence count. -/
def cfgPool (mo : Nat) : Config :=
  { stringPooling := true, stringPoolMinOccurrences := (mo : Int) }

theorem mem_firstSeenAux : ∀ (l seen : List String) (x : String),
    x ∈ firstSeenAux seen l ↔ (x ∈ l ∧ x ∉ seen) := by
  intro l
  induction l with
  | nil => simp [firstSeenAux]
  | cons s t ih =>
      intro seen x
      by_cases hs : seen.contains s = true
      · rw [firstSeenAux, if_pos hs, ih seen x]
        constructor
        · rintro ⟨hx, hns⟩
          exact ⟨List.mem_cons_of_mem _ hx, hns⟩
        · rintro ⟨hx, hns⟩
          rcases List.mem_cons.mp hx with rfl | hx
          · exact absurd (by simpa using hs) hns
          · exact ⟨hx, hns⟩
      · rw [firstSeenAux, if_neg hs]
        simp only [List.mem_cons, ih (s :: seen) x]
        constructor
        · rintro (rfl | ⟨hx, hns⟩)
          · exact ⟨Or.inl rfl, by simpa using hs⟩
          · refine ⟨Or.inr hx, fun hxs => hns (Or.inr hxs)⟩
        · rintro ⟨rfl | hx, hns⟩
          · exact Or.inl rfl
          · by_cases hxs : x = s
            · exact Or.inl hxs
            · exact Or.inr ⟨hx, by simp [List.mem_cons, hxs] at hns ⊢; exact hns⟩

theorem firstSeenAux_append : ∀ (M seen : List String) (x : String),
    firstSeenAux seen (M ++ [x])
      = firstSeenAux seen M ++ (if x ∈ seen ∨ x ∈ M then [] else [x]) := by
  intro M
  induction M with
  | nil =>
      intro seen x
      by_cases hx : seen.contains x = true
      · have hxs : x ∈ seen := by simpa using hx
        simp [firstSeenAux, hx, hxs]
      · have hxs : x ∉ seen := by simpa using hx
        simp [firstSeenAux, hx, hxs]
  | cons s t ih =>
      intro seen x
      by_cases hs : seen.contains s = true
      · have hss : s ∈ seen := by simpa using hs
        rw [List.cons_append, firstSeenAux, if_pos hs, ih seen x,
          firstSeenAux, if_pos hs]
        congr 1
        by_cases hx1 : x ∈ seen
        · simp [hx1]
        · by_cases hx2 : x ∈ t
          · simp [hx2, List.mem_cons]
          · by_cases hx3 : x = s
            · subst hx3
              exact absurd hss hx1
            · simp [hx1, hx2, hx3, List.mem_cons]
      · rw [List.cons_append, firstSeenAux, if_neg hs, ih (s :: seen) x,
          firstSeenAux, if_neg hs, List.cons_append]
        congr 2
        by_cases hx1 : x ∈ seen
        · simp [hx1, List.mem_cons]
        · by_cases hx2 : x ∈ t
          · simp [hx2, List.mem_cons]
          · by_cases hx3 : x = s
            · subst hx3
              simp [List.mem_cons]
            · simp [hx1, hx2, hx3, List.mem_cons]

theorem firstSeen_append (M : List String) (x : String) :
    firstSeen (M ++ [x])
      = firstSeen M ++ (if x ∈ M then [] else [x]) := by
  unfold firstSeen
  rw [firstSeenAux_append]
  simp

theorem mem_firstSeen (M : List String) (x : String) :
    x ∈ firstSeen M ↔ x ∈ M := by
  unfold firstSeen
  rw [mem_firstSeenAux]
  simp

theorem foldl_bump_counts : ∀ (M : List String),
    M.foldl bump [] = (firstSeen M).map (fun s => (s, M.count s)) := by
  intro M
  induction M using List.reverseRecOn with
  | nil => simp [firstSeen, firstSeenAux]
  | append_singleton M x ih =>
      rw [List.foldl_append, List.foldl_cons, List.foldl_nil, ih,
        firstSeen_append]
      by_cases hx : x ∈ M
      · have hany : ((firstSeen M).map (fun s => (s, M.count s))).any
            (fun p => p.1 == x) = true := by
          simp only [List.any_eq_true]
          exact ⟨(x, M.count x),
            List.mem_map.mpr ⟨x, (mem_firstSeen M x).mpr hx, rfl⟩, by simp⟩
        rw [bump, if_pos hany, if_pos hx, List.append_nil, List.map_map]
        apply List.map_congr_left
        intro s hs
        by_cases hsx : s = x
        · subst hsx
          simp [List.count_append]
        · have : (s == x) = false := beq_eq_false_iff_ne.mpr hsx
          simp [this, List.count_append, List.count_singleton', hsx]
      · have hany : ((firstSeen M).map (fun s => (s, M.count s))).any
            (fun p => p.1 == x) = false := by
          simp only [List.any_eq_false]
          rintro p hp
          obtain ⟨s, hs, rfl⟩ := List.mem_map.mp hp
          have hsM : s ∈ M := (mem_firstSeen M s).mp hs
          have : s ≠ x := fun he => hx (he ▸ hsM)
          simpa using this
        rw [bump, if_neg (by simp [hany]), if_neg hx, List.map_append]
        congr 1
        · apply List.map_congr_left
          intro s hs
          have hsM : s ∈ M := (mem_firstSeen M s).mp hs
          have hsx : s ≠ x := fun he => hx (he ▸ hsM)
          simp [List.count_append, List.count_singleton', hsx]
        · have : M.count x = 0 := List.count_eq_zero.mpr hx
          simp [List.count_append, this]

theorem statsFields_counts
    (fs : List (String × JValue))
    (hl : ∀ p ∈ fs, ∀ (path : String) (sc : List (String × Nat)) ec,
      (statsV p.2 path sc ec).1 = (strsOf p.2).foldl
        (fun c s => if 3 < s.utf8ByteSize then bump c s else c) sc) :
    ∀ (path : String) (sc : List (String × Nat)) ec,
      (statsFields fs path sc ec).1 = (strsOfFields fs).foldl
        (fun c s => if 3 < s.utf8ByteSize then bump c s else c) sc := by
  induction fs with
  | nil => intro path sc ec; simp [statsFields, strsOfFields]
  | cons p rest ih =>
      intro path sc ec
      obtain ⟨k, v⟩ := p
      rw [statsFields]
      rw [ih (fun q hq => hl q (List.mem_cons_of_mem _ hq))]
      rw [hl (k, v) (List.mem_cons_self _ _)]
      rw [strsOfFields, List.foldl_append]

theorem statsElems_counts
    (xs : List JValue)
    (hl : ∀ x ∈ xs, ∀ (path : String) (sc : List (String × Nat)) ec,
      (statsV x path sc ec).1 = (strsOf x).foldl
        (fun c s => if 3 < s.utf8ByteSize then bump c s else c) sc) :
    ∀ (path : String) (sc : List (String × Nat)) ec,
      (statsElems xs path sc ec).1 = (strsOfElems xs).foldl
        (fun c s => if 3 < s.utf8ByteSize then bump c s else c) sc := by
  induction xs with
  | nil => intro path sc ec; simp [statsElems, strsOfElems]
  | cons x rest ih =>
      intro path sc ec
      rw [statsElems]
      rw [ih (fun q hq => hl q (List.mem_cons_of_mem _ hq))]
      rw [hl x (List.mem_cons_self _ _)]
      rw [strsOfElems, List.foldl_append]

/-- The string-count side of the statistics collector is the fold of the
count-bump over the tree's string leaves in traversal order. -/
theorem statsV_counts : ∀ (v : JValue) (path : String)
    (sc : List (String × Nat)) ec,
    (statsV v path sc ec).1 = (strsOf v).foldl
      (fun c s => if 3 < s.utf8ByteSize then bump c s else c) sc := by
  intro v
  induction v using JValue.inductOn with
  | hnull => intro path sc ec; simp [statsV, strsOf]
  | hbool b => intro path sc ec; simp [statsV, strsOf]
  | hnum q => intro path sc ec; simp [statsV, strsOf]
  | hstr s =>
      intro path sc ec
      rw [statsV, strsOf]
      by_cases hb : 3 < s.utf8ByteSize <;> simp [hb]
  | harr xs ih =>
      intro path sc ec
      rw [statsV, strsOf]
      exact statsElems_counts xs ih path sc ec
  | hobj fs ih =>
      intro path sc ec
      rw [statsV, strsOf]
      exact statsFields_counts fs ih path sc ec

theorem foldl_bumpGT_filter : ∀ (L : List String) (sc : List (String × Nat)),
    L.foldl (fun c s => if 3 < s.utf8ByteSize then bump c s else c) sc
      = (L.filter (fun s => decide (3 < s.utf8ByteSize))).foldl bump sc := by
  intro L
  induction L with
  | nil => intro sc; rfl
  | cons s t ih =>
      intro sc
      rw [List.foldl_cons, List.filter_cons]
      by_cases hb : 3 < s.utf8ByteSize
      · have hd : decide (3 < s.utf8ByteSize) = true := by simpa using hb
        rw [if_pos hb, hd, if_pos rfl, List.foldl_cons]
        exact ih (bump sc s)
      · have hd : decide (3 < s.utf8ByteSize) = false := by simpa using hb
        rw [if_neg hb, hd]
        simp only [Bool.false_eq_true, if_false]
        exact ih sc

theorem filterMap_counts (mo : Int) : ∀ (l : List String) (cnt : String → Nat),
    (∀ s ∈ l, 3 < s.utf8ByteSize) →
    ((l.map (fun s => (s, cnt s))).filterMap
        (fun p => if mo ≤ (p.2 : Int) ∧ 3 < p.1.utf8ByteSize then some p.1 else none))
      = l.filter (fun s => decide (mo ≤ (cnt s : Int))) := by
  intro l
  induction l with
  | nil => intro cnt _; rfl
  | cons s t ih =>
      intro cnt hbytes
      have hb : 3 < s.utf8ByteSize := hbytes s (List.mem_cons_self _ _)
      rw [List.map_cons, List.filterMap_cons, List.filter_cons]
      by_cases hc : mo ≤ ((cnt s : Nat) : Int)
      · have hd : decide (mo ≤ ((cnt s : Nat) : Int)) = true := by simpa using hc
        rw [if_pos ⟨hc, hb⟩, hd, if_pos rfl,
          ih cnt (fun x hx => hbytes x (List.mem_cons_of_mem _ hx))]
      · have hd : decide (mo ≤ ((cnt s : Nat) : Int)) = false := by simpa using hc
        rw [if_neg (fun hand => hc hand.1), hd]
        simp only [Bool.false_eq_true, if_false]
        exact ih cnt (fun x hx => hbytes x (List.mem_cons_of_mem _ hx))

/-- C4 (amended): with string pooling enabled and minimum occurrence count
mo >= 1, the statistics collector's index-ordered string list consists of
exactly the strings of the original tree that are longer than 3 UTF-8
bytes (the source measures byte length, not code points) and occur at
least mo times, listed in first-seen traversal order; the pool maps each
listed string to its dense index. -/
theorem C4_string_pool : ∀ (mo : Nat) (v : JValue) (rp : Nat → List Nat),
    1 ≤ mo →
    (collectStatistics (New (cfgPool mo) rp) v).stringList
      = (firstSeen ((strsOf v).filter (fun t => decide (3 < t.utf8ByteSize)))).filter
          (fun t => decide ((mo : Int) ≤ ((strsOf v).count t : Int)))
    ∧ (collectStatistics (New (cfgPool mo) rp) v).stringPool
      = (collectStatistics (New (cfgPool mo) rp) v).stringList.enum.map
          (fun p => (p.2, p.1)) := by
  intro mo v rp hmo
  have hflag : (New (cfgPool mo) rp).config.stringPooling = true := rfl
  have hmoc : (New (cfgPool mo) rp).config.stringPoolMinOccurrences = (mo : Int) := by
    show (if (mo : Int) = 0 then 2 else (mo : Int)) = (mo : Int)
    rw [if_neg]
    simp only [Int.natCast_eq_zero]
    omega
  constructor
  · show (if (New (cfgPool mo) rp).config.stringPooling = true then
        buildStringList (New (cfgPool mo) rp).config (statsV v "" [] []).1 else [])
      = _
    rw [if_pos hflag]
    rw [buildStringList.eq_def]
    rw [statsV_counts v "" [] [], foldl_bumpGT_filter, foldl_bump_counts]
    rw [hmoc]
    have hbytes : ∀ s ∈ firstSeen ((strsOf v).filter
        (fun t => decide (3 < t.utf8ByteSize))), 3 < s.utf8ByteSize := by
      intro s hs
      have := (mem_firstSeen _ s).mp hs
      have := List.mem_filter.mp this
      simpa using this.2
    rw [filterMap_counts _ _ _ hbytes]
    apply List.filter_congr
    intro s hs
    have hsf := (mem_firstSeen _ s).mp hs
    have hcnt : ((strsOf v).filter (fun t => decide (3 < t.utf8ByteSize))).count s
        = (strsOf v).count s := by
      rw [List.count_filter]
      have := List.mem_filter.mp hsf
      simp [this.2]
    rw [hcnt]
  · rfl

/-- Witness for C4 at minimum occurrences 2: a 4-byte string occurring
twice is pooled, a short repeated string and a singleton long string are
not. -/
theorem C4_string_pool_witness :
    (collectStatistics (New (cfgPool 2) idPerm)
        (.arr [.str "aaaa", .str "bb", .str "cccc", .str "aaaa", .str "bb"])).stringList
      = ["aaaa"] := by
  have h := (C4_string_pool 2
    (.arr [.str "aaaa", .str "bb", .str "cccc", .str "aaaa", .str "bb"])
    idPerm (by decide)).1
  rw [h]
  rfl

/-- Counterexample to C4 as stated: the string with three code points but
six UTF-8 bytes occurring twice is pooled, although it is not longer than
3 code points. -/
theorem C4_counterexample :
    (collectStatistics (New { stringPooling := true, stringPoolMinOccurrences := 2 }
        idPerm) (.arr [.str "ééé", .str "ééé"])).stringList = ["ééé"]
    ∧ ¬ 3 < ("ééé" : String).length :=
  ⟨rfl, by decide⟩

/-- The Configuration of C7: strip-empty only (decimal places at the spec
default of -1). -/
def cfgSE : Config := { stripEmpty := true, decimalPlaces := -1 }

theorem Stripped_null : Stripped .null ↔ True := by rw [Stripped]

theorem Stripped_bool (b : Bool) : Stripped (.bool b) ↔ True := by rw [Stripped]

theorem Stripped_num (q : ℚ) : Stripped (.num q) ↔ True := by rw [Stripped]

theorem Stripped_str (s : String) : Stripped (.str s) ↔ s ≠ "" := by rw [Stripped]

theorem Stripped_arr (xs : List JValue) :
    Stripped (.arr xs) ↔ (xs ≠ [] ∧ ∀ x ∈ xs, Stripped x ∧ isEmpty x = false) := by
  rw [Stripped]

theorem Stripped_obj (fs : List (String × JValue)) :
    Stripped (.obj fs) ↔ (fs ≠ [] ∧ ∀ p ∈ fs, Stripped p.2 ∧ isEmpty p.2 = false) := by
  rw [Stripped]

theorem depthCut_cfgSE (rp : Nat → List Nat) (d : Nat) :
    depthCut (New cfgSE rp).config d = false := rfl

theorem sampleArray_cfgSE (rp : Nat → List Nat) (l : List JValue) :
    sampleArray (New cfgSE rp) l = l := by
  simp [sampleArray, New, cfgSE]

theorem pruneElems_cfgSE_stripped (rp : Nat → List Nat) :
    ∀ (xs : List JValue),
      (∀ x ∈ xs, ∀ (d : Nat) (ns : List String),
        Stripped (pruneV (New cfgSE rp) x d ns).1) →
      ∀ (d : Nat) (ns : List String) (y : JValue),
        y ∈ (pruneElems (New cfgSE rp) xs d ns).1 →
        Stripped y ∧ isEmpty y = false := by
  intro xs
  induction xs with
  | nil =>
      intro _ d ns y hy
      simp [pruneElems] at hy
  | cons x rest ih =>
      intro hl d ns y hy
      have hse : (New cfgSE rp).config.stripEmpty = true := rfl
      simp only [pruneElems, hse, Bool.true_and] at hy
      by_cases hemp : isEmpty (pruneV (New cfgSE rp) x (d + 1) ns).1
      · rw [if_pos hemp] at hy
        exact ih (fun z hz => hl z (List.mem_cons_of_mem _ hz)) d _ y hy
      · rw [if_neg hemp] at hy
        rcases List.mem_cons.mp hy with rfl | hy
        · exact ⟨hl x (List.mem_cons_self _ _) (d + 1) ns,
            Bool.not_eq_true _ ▸ eq_false_of_ne_true (by simpa using hemp)⟩
        · exact ih (fun z hz => hl z (List.mem_cons_of_mem _ hz)) d _ y hy

theorem pruneFields_cfgSE_stripped (rp : Nat → List Nat) :
    ∀ (fs : List (String × JValue)),
      (∀ p ∈ fs, ∀ (d : Nat) (ns : List String),
        Stripped (pruneV (New cfgSE rp) p.2 d ns).1) →
      ∀ (d : Nat) (ns : List String) (q : String × JValue),
        q ∈ (pruneFields (New cfgSE rp) fs d ns).1 →
        Stripped q.2 ∧ isEmpty q.2 = false := by
  intro fs
  induction fs with
  | nil =>
      intro _ d ns q hq
      simp [pruneFields] at hq
  | cons p rest ih =>
      intro hl d ns q hq
      obtain ⟨k, v⟩ := p
      have hse : (New cfgSE rp).config.stripEmpty = true := rfl
      have hblk : isBlocked (New cfgSE rp).config k = false := rfl
      have hnc : (New cfgSE rp).config.nullCompression = false := rfl
      simp only [pruneFields, hse, hblk, hnc, Bool.true_and, Bool.and_false,
        Bool.false_eq_true, if_false] at hq
      by_cases hemp : isEmpty (pruneV (New cfgSE rp) v (d + 1) ns).1
      · rw [if_pos hemp] at hq
        exact ih (fun z hz => hl z (List.mem_cons_of_mem _ hz)) d _ q hq
      · rw [if_neg hemp] at hq
        rcases List.mem_cons.mp hq with rfl | hq
        · exact ⟨hl (k, v) (List.mem_cons_self _ _) (d + 1) ns,
            eq_false_of_ne_true (by simpa using hemp)⟩
        · exact ih (fun z hz => hl z (List.mem_cons_of_mem _ hz)) d _ q hq

theorem pruneV_cfgSE_stripped (rp : Nat → List Nat) :
    ∀ (v : JValue) (d : Nat) (ns : List String),
      Stripped (pruneV (New cfgSE rp) v d ns).1 := by
  intro v
  induction v using JValue.inductOn with
  | hnull => intro d ns; simp [pruneV, Stripped_null]
  | hbool b => intro d ns; simp [pruneV, depthCut_cfgSE, Stripped_bool]
  | hnum q =>
      intro d ns
      have hdp : (New cfgSE rp).config.decimalPlaces = -1 := rfl
      simp [pruneV, depthCut_cfgSE, hdp, Stripped_num]
  | hstr s =>
      intro d ns
      have hse : (New cfgSE rp).config.stripEmpty = true := rfl
      by_cases hs : s = ""
      · subst hs
        simp [pruneV, depthCut_cfgSE, hse, Stripped_null]
      · have hbe : (s == "") = false := beq_eq_false_iff_ne.mpr hs
        have hps : pruneString (New cfgSE rp) s = .str s := rfl
        simp [pruneV, depthCut_cfgSE, hse, hbe, hps, Stripped_str, hs]
  | harr xs ih =>
      intro d ns
      have hse : (New cfgSE rp).config.stripEmpty = true := rfl
      have hdd : (New cfgSE rp).config.deduplicateArrays = false := rfl
      by_cases hxs : xs.isEmpty
      · simp [pruneV, depthCut_cfgSE, hse, hxs, Stripped_null]
      · have helems := pruneElems_cfgSE_stripped rp xs ih d ns
        simp only [pruneV, depthCut_cfgSE, Bool.false_eq_true, if_false, hxs,
          hse, hdd, Bool.true_and, sampleArray_cfgSE]
        by_cases hfin : (pruneElems (New cfgSE rp) xs d ns).1.isEmpty
        · rw [if_pos hfin]
          simp [Stripped_null]
        · rw [if_neg hfin]
          have har : applyArrayRewrites (New cfgSE rp)
              (pruneElems (New cfgSE rp) xs d ns).1
              = .arr (pruneElems (New cfgSE rp) xs d ns).1 := rfl
          rw [har, Stripped_arr]
          exact ⟨fun h0 => hfin (by rw [h0]; rfl), fun y hy => helems y hy⟩
  | hobj fs ih =>
      intro d ns
      have hse : (New cfgSE rp).config.stripEmpty = true := rfl
      have hbc : (New cfgSE rp).config.boolCompression = false := rfl
      by_cases hfs : fs.isEmpty
      · simp [pruneV, depthCut_cfgSE, hse, hfs, Stripped_null]
      · have hflds := pruneFields_cfgSE_stripped rp fs ih d ns
        simp only [pruneV, depthCut_cfgSE, Bool.false_eq_true, if_false, hfs,
          hse, hbc, Bool.true_and]
        by_cases hfin : (pruneFields (New cfgSE rp) fs d ns).1.isEmpty
        · rw [if_pos hfin]
          simp [Stripped_null]
        · rw [if_neg hfin]
          rw [Stripped_obj]
          exact ⟨fun h0 => hfin (by rw [h0]; rfl), fun q hq => hflds q hq⟩

theorem pruneElems_cfgSE_id (rp : Nat → List Nat) :
    ∀ (xs : List JValue),
      (∀ x ∈ xs, Stripped x → ∀ (d : Nat) (ns : List String),
        pruneV (New cfgSE rp) x d ns = (x, ns)) →
      (∀ x ∈ xs, Stripped x ∧ isEmpty x = false) →
      ∀ (d : Nat) (ns : List String),
        pruneElems (New cfgSE rp) xs d ns = (xs, ns) := by
  intro xs
  induction xs with
  | nil => intro _ _ d ns; rfl
  | cons x rest ih =>
      intro hl hs d ns
      have hx := hs x (List.mem_cons_self _ _)
      have hpx := hl x (List.mem_cons_self _ _) hx.1 (d + 1) ns
      simp only [pruneElems, hpx, hx.2,
        ih (fun z hz => hl z (List.mem_cons_of_mem _ hz))
           (fun z hz => hs z (List.mem_cons_of_mem _ hz)) d ns,
        Bool.and_false, Bool.false_eq_true, if_false]

theorem pruneFields_cfgSE_id (rp : Nat → List Nat) :
    ∀ (fs : List (String × JValue)),
      (∀ p ∈ fs, Stripped p.2 → ∀ (d : Nat) (ns : List String),
        pruneV (New cfgSE rp) p.2 d ns = (p.2, ns)) →
      (∀ p ∈ fs, Stripped p.2 ∧ isEmpty p.2 = false) →
      ∀ (d : Nat) (ns : List String),
        pruneFields (New cfgSE rp) fs d ns = (fs, ns) := by
  intro fs
  induction fs with
  | nil => intro _ _ d ns; rfl
  | cons p rest ih =>
      intro hl hs d ns
      obtain ⟨k, v⟩ := p
      have hx := hs (k, v) (List.mem_cons_self _ _)
      have hpx := hl (k, v) (List.mem_cons_self _ _) hx.1 (d + 1) ns
      have hblk : isBlocked (New cfgSE rp).config k = false := rfl
      have hnc : (New cfgSE rp).config.nullCompression = false := rfl
      simp only [pruneFields, hblk, hnc, Bool.and_false, Bool.false_eq_true,
        if_false, hpx, hx.2,
        ih (fun z hz => hl z (List.mem_cons_of_mem _ hz))
           (fun z hz => hs z (List.mem_cons_of_mem _ hz)) d ns]

theorem pruneV_cfgSE_id (rp : Nat → List Nat) :
    ∀ (v : JValue), Stripped v → ∀ (d : Nat) (ns : List String),
      pruneV (New cfgSE rp) v d ns = (v, ns) := by
  intro v
  induction v using JValue.inductOn with
  | hnull => intro _ d ns; rfl
  | hbool b => intro _ d ns; rfl
  | hnum q => intro _ d ns; rfl
  | hstr s =>
      intro hv d ns
      have hs : s ≠ "" := (Stripped_str s).mp hv
      have hbe : (s == "") = false := beq_eq_false_iff_ne.mpr hs
      have hps : pruneString (New cfgSE rp) s = .str s := rfl
      simp [pruneV, depthCut_cfgSE, hbe, hps]
  | harr xs ih =>
      intro hv d ns
      obtain ⟨hne, hall⟩ := (Stripped_arr xs).mp hv
      have hxs : xs.isEmpty = false := by
        cases xs with
        | nil => exact absurd rfl hne
        | cons a t => rfl
      have hdd : (New cfgSE rp).config.deduplicateArrays = false := rfl
      have hel := pruneElems_cfgSE_id rp xs
        (fun x hx _ => ih x hx ((hall x hx).1))
        hall d ns
      simp only [pruneV, depthCut_cfgSE, Bool.false_eq_true, if_false, hxs,
        hdd, hel, sampleArray_cfgSE, hxs, Bool.true_and]
      rw [if_neg (by simp [hxs])]
      rfl
  | hobj fs ih =>
      intro hv d ns
      obtain ⟨hne, hall⟩ := (Stripped_obj fs).mp hv
      have hfs : fs.isEmpty = false := by
        cases fs with
        | nil => exact absurd rfl hne
        | cons a t => rfl
      have hbc : (New cfgSE rp).config.boolCompression = false := rfl
      have hel := pruneFields_cfgSE_id rp fs
        (fun p hp _ => ih p hp ((hall p hp).1))
        hall d ns
      simp only [pruneV, depthCut_cfgSE, Bool.false_eq_true, if_false, hfs,
        hbc, hel, Bool.true_and]
      rw [if_neg (by simp [hfs])]

/-- C7: slimming with a Configuration that only enables strip-empty is
idempotent: slim(slim(v)) = slim(v) for every input. -/
theorem C7_strip_empty_idempotent : ∀ (rp : Nat → List Nat) (v : JValue),
    runSlim cfgSE rp (runSlim cfgSE rp v) = runSlim cfgSE rp v := by
  intro rp v
  have hrun : ∀ w, runSlim cfgSE rp w = (pruneV (New cfgSE rp) w 0 []).1 := by
    intro w
    have hsp : (New cfgSE rp).config.stringPooling = false := rfl
    have hed : (New cfgSE rp).config.enumDetection = false := rfl
    have hnc : (New cfgSE rp).config.nullCompression = false := rfl
    show (New cfgSE rp).Slim w = _
    unfold Slimmer.Slim
    simp only [hsp, hed, Bool.or_self, Bool.false_eq_true, if_false]
    rcases h : (pruneV (New cfgSE rp) w 0 []).1 with _ | _ | _ | _ | _ | fs <;>
      simp [h, hsp, hed, hnc]
  rw [hrun v, hrun ((pruneV (New cfgSE rp) v 0 []).1)]
  rw [pruneV_cfgSE_id rp _ (pruneV_cfgSE_stripped rp v 0 []) 0 []]

theorem deepNullFrom_null : ∀ (k : Nat), deepNullFrom k .null = true := by
  intro k
  cases k <;> rfl

theorem deepNullFrom_succ_arr (k : Nat) (xs : List JValue) :
    deepNullFrom (k + 1) (.arr xs) = xs.all (fun x => deepNullFrom k x) := rfl

theorem deepNullFrom_succ_obj (k : Nat) (fs : List (String × JValue)) :
    deepNullFrom (k + 1) (.obj fs) = fs.all (fun p => deepNullFrom k p.2) := rfl

theorem deepNullFrom_succ_pruneString (k : Nat) (s : Slimmer) (str : String) :
    deepNullFrom (k + 1) (pruneString s str) = true := by
  simp only [pruneString]
  (repeat' split) <;> rfl

theorem pruneV_depthCut (s : Slimmer) (p : Nat)
    (h : depthCut s.config p = true) :
    ∀ (v : JValue) (ns : List String), pruneV s v p ns = (.null, ns) := by
  intro v ns
  cases v <;> simp [pruneV, h]

theorem mem_dedupGo : ∀ (l : List JValue) (seen : List String) (y : JValue),
    y ∈ dedupGo seen l → y ∈ l := by
  intro l
  induction l with
  | nil => intro seen y hy; simp [dedupGo] at hy
  | cons x rest ih =>
      intro seen y hy
      rw [dedupGo] at hy
      by_cases hc : seen.contains (valueToString x) = true
      · rw [if_pos hc] at hy
        exact List.mem_cons_of_mem _ (ih seen y hy)
      · rw [if_neg hc] at hy
        rcases List.mem_cons.mp hy with rfl | hy
        · exact List.mem_cons_self _ _
        · exact List.mem_cons_of_mem _ (ih _ y hy)

theorem getD_mem_or (l : List JValue) (i : Nat) :
    l.getD i .null ∈ l ∨ l.getD i .null = .null := by
  by_cases hi : i < l.length
  · left
    rw [List.getD_eq_getElem l _ hi]
    exact List.getElem_mem hi
  · right
    exact List.getD_eq_default l _ (by omega)

theorem mem_sampleArray (s : Slimmer) (l : List JValue) (y : JValue)
    (hy : y ∈ sampleArray s l) : y ∈ l ∨ y = .null := by
  simp only [sampleArray, sampleFirstLast, sampleRandom,
    sampleRepresentative] at hy
  repeat' split at hy
  all_goals
    first
      | exact Or.inl hy
      | (cases List.mem_append.mp hy with
          | inl hh => exact Or.inl (List.mem_of_mem_take hh)
          | inr hh => exact Or.inl (List.mem_of_mem_drop hh))
      | (obtain ⟨i, _, rfl⟩ := List.mem_map.mp hy
         exact getD_mem_or l _)
      | exact Or.inl (List.mem_of_mem_take hy)

theorem applyArrayRewrites_off (s : Slimmer)
    (hTI : s.config.typeInference = false)
    (hND : s.config.numberDeltaEncoding = false) (l : List JValue) :
    applyArrayRewrites s l = .arr l := by
  simp [applyArrayRewrites, hTI, hND]

theorem pruneElems_deepNull (s : Slimmer) (k p : Nat) :
    ∀ (xs : List JValue),
      (∀ x ∈ xs, ∀ (ns : List String),
        deepNullFrom k (pruneV s x (p + 1) ns).1 = true) →
      ∀ (ns : List String) (y : JValue),
        y ∈ (pruneElems s xs p ns).1 → deepNullFrom k y = true := by
  intro xs
  induction xs with
  | nil =>
      intro _ ns y hy
      simp [pruneElems] at hy
  | cons x rest ih =>
      intro hl ns y hy
      rw [pruneElems] at hy
      split at hy
      · exact ih (fun z hz => hl z (List.mem_cons_of_mem _ hz)) _ y hy
      · rcases List.mem_cons.mp hy with rfl | hy
        · exact hl x (List.mem_cons_self _ _) ns
        · exact ih (fun z hz => hl z (List.mem_cons_of_mem _ hz)) _ y hy

theorem pruneFields_deepNull (s : Slimmer) (k p : Nat) :
    ∀ (fs : List (String × JValue)),
      (∀ q ∈ fs, ∀ (ns : List String),
        deepNullFrom k (pruneV s q.2 (p + 1) ns).1 = true) →
      ∀ (ns : List String) (y : String × JValue),
        y ∈ (pruneFields s fs p ns).1 → deepNullFrom k y.2 = true := by
  intro fs
  induction fs with
  | nil =>
      intro _ ns y hy
      simp [pruneFields] at hy
  | cons q rest ih =>
      intro hl ns y hy
      obtain ⟨kk, v⟩ := q
      simp only [pruneFields] at hy
      repeat' split at hy
      all_goals
        first
          | exact ih (fun z hz => hl z (List.mem_cons_of_mem _ hz)) _ y hy
          | (cases List.mem_cons.mp hy with
              | inl h1 =>
                  exact h1 ▸ hl (kk, v) (List.mem_cons_self _ _) _
              | inr h2 =>
                  exact ih (fun z hz => hl z (List.mem_cons_of_mem _ hz)) _ y h2)

/-- The value part of prune on a non-empty array below the depth cut. -/
theorem pruneV_arr_val (s : Slimmer) (p : Nat) (ns : List String)
    (xs : List JValue) (hcut : depthCut s.config p = false)
    (hxs : xs.isEmpty = false) :
    (pruneV s (.arr xs) p ns).1 =
      (if s.config.stripEmpty &&
          (sampleArray s (if s.config.deduplicateArrays then
            deduplicateArray (pruneElems s xs p ns).1
          else (pruneElems s xs p ns).1)).isEmpty then
        JValue.null
      else
        applyArrayRewrites s (sampleArray s (if s.config.deduplicateArrays then
          deduplicateArray (pruneElems s xs p ns).1
        else (pruneElems s xs p ns).1))) := by
  simp only [pruneV, hcut, hxs, Bool.false_eq_true, if_false]
  split <;> first | rfl | rw [apply_ite Prod.fst]

/-- The value part of prune on a non-empty object below the depth cut. -/
theorem pruneV_obj_val (s : Slimmer) (p : Nat) (ns : List String)
    (fs : List (String × JValue)) (hcut : depthCut s.config p = false)
    (hfs : fs.isEmpty = false) :
    (pruneV s (.obj fs) p ns).1 =
      (if s.config.stripEmpty && (pruneFields s fs p ns).1.isEmpty then
        JValue.null
      else
        .obj (if s.config.boolCompression then
          applyBoolCompression s.config (pruneFields s fs p ns).1
        else (pruneFields s fs p ns).1)) := by
  simp only [pruneV, hcut, hfs, Bool.false_eq_true, if_false]
  split <;> first | rfl | rw [apply_ite Prod.fst]

theorem pruneV_deepNull (s : Slimmer) (d : Nat)
    (hMD : s.config.maxDepth = (d : Int)) (hd : 0 < d)
    (hTI : s.config.typeInference = false)
    (hBC : s.config.boolCompression = false)
    (hND : s.config.numberDeltaEncoding = false) :
    ∀ (v : JValue) (p : Nat) (ns : List String),
      deepNullFrom (d - p) (pruneV s v p ns).1 = true := by
  intro v
  induction v using JValue.inductOn with
  | hnull => intro p ns; exact deepNullFrom_null _
  | hbool b =>
      intro p ns
      by_cases hcut : depthCut s.config p = true
      · rw [pruneV_depthCut s p hcut]
        exact deepNullFrom_null _
      · have hp : p < d := by
          simp only [depthCut, hMD, Bool.and_eq_true, decide_eq_true_eq] at hcut
          by_contra hpd
          exact hcut ⟨by exact_mod_cast hd, by exact_mod_cast not_lt.mp hpd⟩
        have hk : d - p = (d - (p + 1)) + 1 := by omega
        rw [pruneV]
        rw [if_neg (by simp [hcut])]
        rw [hk]
        rfl
  | hnum q =>
      intro p ns
      by_cases hcut : depthCut s.config p = true
      · rw [pruneV_depthCut s p hcut]
        exact deepNullFrom_null _
      · have hp : p < d := by
          simp only [depthCut, hMD, Bool.and_eq_true, decide_eq_true_eq] at hcut
          by_contra hpd
          exact hcut ⟨by exact_mod_cast hd, by exact_mod_cast not_lt.mp hpd⟩
        have hk : d - p = (d - (p + 1)) + 1 := by omega
        rw [pruneV]
        rw [if_neg (by simp [hcut])]
        rw [hk]
        split <;> rfl
  | hstr str =>
      intro p ns
      by_cases hcut : depthCut s.config p = true
      · rw [pruneV_depthCut s p hcut]
        exact deepNullFrom_null _
      · have hp : p < d := by
          simp only [depthCut, hMD, Bool.and_eq_true, decide_eq_true_eq] at hcut
          by_contra hpd
          exact hcut ⟨by exact_mod_cast hd, by exact_mod_cast not_lt.mp hpd⟩
        have hk : d - p = (d - (p + 1)) + 1 := by omega
        rw [pruneV]
        rw [if_neg (by simp [hcut])]
        rw [hk]
        split
        · exact deepNullFrom_null _
        · exact deepNullFrom_succ_pruneString _ s str
  | harr xs ih =>
      intro p ns
      by_cases hcut : depthCut s.config p = true
      · rw [pruneV_depthCut s p hcut]
        exact deepNullFrom_null _
      · have hp : p < d := by
          simp only [depthCut, hMD, Bool.and_eq_true, decide_eq_true_eq] at hcut
          by_contra hpd
          exact hcut ⟨by exact_mod_cast hd, by exact_mod_cast not_lt.mp hpd⟩
        have hk : d - p = (d - (p + 1)) + 1 := by omega
        have hcut2 : depthCut s.config p = false := eq_false_of_ne_true hcut
        have helems := pruneElems_deepNull s (d - (p + 1)) p xs
          (fun x hx ns => ih x hx (p + 1) ns) ns
        by_cases hxs : xs.isEmpty = true
        · have hx0 : xs = [] := List.isEmpty_iff.mp hxs
          subst hx0
          rw [pruneV]
          rw [if_neg (by simp [hcut])]
          simp only [List.isEmpty_nil, if_true]
          split
          · exact deepNullFrom_null _
          · rw [hk]; rfl
        · have hxs2 : xs.isEmpty = false := eq_false_of_ne_true hxs
          rw [pruneV_arr_val s p ns xs hcut2 hxs2]
          split
          all_goals split
          all_goals
            first
              | exact deepNullFrom_null _
              | (rw [applyArrayRewrites_off s hTI hND, hk, deepNullFrom_succ_arr,
                   List.all_eq_true]
                 intro y hy
                 cases mem_sampleArray s _ y hy with
                 | inl hmem =>
                     first
                       | exact helems y (mem_dedupGo _ _ y hmem)
                       | exact helems y hmem
                 | inr hnul =>
                     rw [hnul]
                     exact deepNullFrom_null _)
  | hobj fs ih =>
      intro p ns
      by_cases hcut : depthCut s.config p = true
      · rw [pruneV_depthCut s p hcut]
        exact deepNullFrom_null _
      · have hp : p < d := by
          simp only [depthCut, hMD, Bool.and_eq_true, decide_eq_true_eq] at hcut
          by_contra hpd
          exact hcut ⟨by exact_mod_cast hd, by exact_mod_cast not_lt.mp hpd⟩
        have hk : d - p = (d - (p + 1)) + 1 := by omega
        have hcut2 : depthCut s.config p = false := eq_false_of_ne_true hcut
        have hflds := pruneFields_deepNull s (d - (p + 1)) p fs
          (fun q hq ns => ih q hq (p + 1) ns) ns
        by_cases hfs : fs.isEmpty = true
        · have hf0 : fs = [] := List.isEmpty_iff.mp hfs
          subst hf0
          rw [pruneV]
          rw [if_neg (by simp [hcut])]
          simp only [List.isEmpty_nil, if_true]
          split
          · exact deepNullFrom_null _
          · rw [hk]; rfl
        · have hfs2 : fs.isEmpty = false := eq_false_of_ne_true hfs
          rw [pruneV_obj_val s p ns fs hcut2 hfs2]
          split
          · exact deepNullFrom_null _
          · rw [hBC]
            simp only [Bool.false_eq_true, if_false]
            rw [hk, deepNullFrom_succ_obj, List.all_eq_true]
            intro y hy
            exact hflds y hy

/-- One Slim call reduces to the prune pass when no statistics or side-car
feature is enabled. -/
theorem runSlim_eq_prune (cfg : Config) (rp : Nat → List Nat)
    (hSP : cfg.stringPooling = false) (hED : cfg.enumDetection = false)
    (hNC : cfg.nullCompression = false) (v : JValue) :
    runSlim cfg rp v = (pruneV (New cfg rp) v 0 []).1 := by
  have hsp' := (New_stringPooling cfg rp).trans hSP
  have hed' := (New_enumDetection cfg rp).trans hED
  have hnc' := (New_nullCompression cfg rp).trans hNC
  show (New cfg rp).Slim v = _
  unfold Slimmer.Slim
  simp only [hsp', hed', Bool.or_self, Bool.false_eq_true, if_false]
  rcases h : (pruneV (New cfg rp) v 0 []).1 with _ | _ | _ | _ | _ | fs <;>
    simp [h, hsp', hed', hnc']

/-- C2 (amended): for every Configuration with max-depth d > 0 in which the
side-car and array/object rewriting features (type-inference, number-delta,
bool-compression, string-pooling, enum-detection, null-compression) are
disabled: any node reached at depth at least d (the root counting as depth
0) is replaced by Null, never by an empty container, the root itself is
never truncated by the depth check, and no node of the output is non-null
at nesting depth at least d.  The second conjunct is the claim's example:
the three-level object at max-depth 2 slims to a Null at depth 2.  (With a
rewriting feature enabled the bound fails; see the counterexample.) -/
theorem C2_depth_bound :
    (∀ (cfg : Config) (rp : Nat → List Nat) (v : JValue) (d : Nat),
      cfg.maxDepth = (d : Int) → 0 < d →
      cfg.typeInference = false → cfg.boolCompression = false →
      cfg.numberDeltaEncoding = false → cfg.stringPooling = false →
      cfg.enumDetection = false → cfg.nullCompression = false →
      (∀ (w : JValue) (p : Nat) (ns : List String), d ≤ p →
        pruneV (New cfg rp) w p ns = (.null, ns))
      ∧ deepNullFrom d (runSlim cfg rp v) = true)
    ∧ runSlim { maxDepth := 2, decimalPlaces := -1 } idPerm
        (.obj [("a", .obj [("b", .obj [("c", .num 1)])])])
      = .obj [("a", .obj [("b", .null)])] := by
  constructor
  · intro cfg rp v d hMD hd hTI hBC hND hSP hED hNC
    have hMD' : (New cfg rp).config.maxDepth = (d : Int) :=
      (New_maxDepth cfg rp).trans hMD
    have hTI' := (New_typeInference cfg rp).trans hTI
    have hBC' := (New_boolCompression cfg rp).trans hBC
    have hND' := (New_numberDeltaEncoding cfg rp).trans hND
    constructor
    · intro w p ns hdp
      apply pruneV_depthCut
      simp only [depthCut, hMD', Bool.and_eq_true, decide_eq_true_eq]
      exact ⟨by exact_mod_cast hd, by exact_mod_cast hdp⟩
    · rw [runSlim_eq_prune cfg rp hSP hED hNC v]
      have h := pruneV_deepNull (New cfg rp) d hMD' hd hTI' hBC' hND' v 0 []
      simpa using h
  · rfl

/-- Counterexample to C2 as stated over every Configuration: with
bool-compression also enabled and max-depth 2, the inserted _bools record
places non-null values (the flags integer and the key list) at nesting
depth 2 and its key strings at depth 3, so the output has non-null nodes at
depth at least d. -/
theorem C2_counterexample :
    (0 : Int) <
      ({ maxDepth := 2, decimalPlaces := -1, boolCompression := true } :
        Config).maxDepth
    ∧ deepNullFrom 2 (runSlim
        { maxDepth := 2, decimalPlaces := -1, boolCompression := true } idPerm
        (.obj [("a", .bool true), ("b", .bool true), ("c", .bool false)]))
      = false :=
  ⟨by decide, by rfl⟩

/-- Witness for C2 at max-depth 1 on a two-level object. -/
theorem C2_depth_bound_witness :
    deepNullFrom 1 (runSlim { maxDepth := 1, decimalPlaces := -1 } idPerm
      (.obj [("a", .num 5), ("b", .obj [("c", .str "x")])])) = true := by
  have h := ((C2_depth_bound.1 { maxDepth := 1, decimalPlaces := -1 } idPerm
    (.obj [("a", .num 5), ("b", .obj [("c", .str "x")])]) 1
    rfl (by decide) rfl rfl rfl rfl rfl rfl).2)
  exact h

/-- The Configuration family of C10's comparison: only the five basic
options may be set (decimal places at -1 / no rounding, every advanced
option disabled), and additionally the combination that distinguishes the
two engines is excluded: strip-empty together with a positive list bound. -/
structure BasicLike (c : Config) : Prop where
  hDec : c.decimalPlaces = -1
  hDedup : c.deduplicateArrays = false
  hSS : c.sampleStrategy = ""
  hSZ : c.sampleSize = 0
  hNC : c.nullCompression = false
  hTI : c.typeInference = false
  hBC : c.boolCompression = false
  hSP : c.stringPooling = false
  hED : c.enumDetection = false
  hEM : c.stripUTF8Emoji = false
  hTC : c.timestampCompression = false
  hND : c.numberDeltaEncoding = false
  hOK : c.stripEmpty = false ∨ c.maxListLength ≤ 0

theorem depthCut_agree (cfg : Config) (rp : Nat → List Nat) (p : Nat) :
    depthCut (New cfg rp).config p = Basic.depthCut (basicOf cfg) p := rfl

theorem stripEmpty_agree (cfg : Config) (rp : Nat → List Nat) :
    (New cfg rp).config.stripEmpty = (basicOf cfg).stripEmpty := rfl

theorem isBlocked_agree (cfg : Config) (rp : Nat → List Nat) (k : String) :
    isBlocked (New cfg rp).config k = Basic.isBlocked (basicOf cfg) k := rfl

theorem pruneString_basicLike (cfg : Config) (rp : Nat → List Nat)
    (h : BasicLike cfg) (str : String) :
    pruneString (New cfg rp) str =
      (if 0 < (basicOf cfg).maxStringLength then
        if (basicOf cfg).maxStringLength < (str.length : Int) then
          if 3 < (basicOf cfg).maxStringLength then
            .str ((str.toList.take ((basicOf cfg).maxStringLength.toNat - 3)).asString ++ "...")
          else .str (str.toList.take (basicOf cfg).maxStringLength.toNat).asString
        else .str str
      else .str str) := by
  have hEM' := (New_stripUTF8Emoji cfg rp).trans h.hEM
  have hSP' := (New_stringPooling cfg rp).trans h.hSP
  have hms : (New cfg rp).config.maxStringLength = (basicOf cfg).maxStringLength := rfl
  simp only [pruneString, hEM', hSP', applyTimestampCompression, hms,
    Bool.false_eq_true, if_false, ite_self]

theorem sampleArray_basicLike (cfg : Config) (rp : Nat → List Nat)
    (h : BasicLike cfg) (l : List JValue) :
    sampleArray (New cfg rp) l =
      (if 0 < cfg.maxListLength ∧ cfg.maxListLength < (l.length : Int) then
        l.take cfg.maxListLength.toNat
      else l) := by
  have hSS' := (New_sampleStrategy cfg rp).trans h.hSS
  have hSZ' := (New_sampleSize cfg rp).trans h.hSZ
  have hML := New_maxListLength cfg rp
  simp only [sampleArray, hSS', hSZ', hML, true_and]
  by_cases h0 : l.length = 0
  · have hl0 : l = [] := List.length_eq_zero.mp h0
    subst hl0
    simp
  rw [if_neg h0]
  by_cases hL : 0 < cfg.maxListLength
  · rw [if_pos hL]
    by_cases hlen : (l.length : Int) ≤ cfg.maxListLength
    · rw [if_pos (Or.inr hlen), if_neg (by omega)]
    · rw [if_neg (by omega)]
      rw [show (("" : String) == "first_last") = false from rfl]
      rw [show (("" : String) == "random") = false from rfl]
      rw [show (("" : String) == "representative") = false from rfl]
      simp only [Bool.false_eq_true, if_false]
      rw [if_pos (by omega), if_pos (by constructor <;> omega)]
  · rw [if_neg hL]
    rw [if_pos (Or.inl rfl), if_neg (by omega)]

theorem basic_pruneElems_map (bc : Basic.Config) (hse : bc.stripEmpty = false) :
    ∀ (xs : List JValue) (d n : Nat),
      Basic.pruneElems bc xs d n =
        (xs.take n).map (fun x => Basic.prune bc x (d + 1)) := by
  intro xs
  induction xs with
  | nil => intro d n; cases n <;> rfl
  | cons x rest ih =>
      intro d n
      cases n with
      | zero => rfl
      | succ m =>
          simp only [Basic.pruneElems, hse, Bool.false_and, Bool.false_eq_true,
            if_false, ih, List.take_succ_cons, List.map_cons]

theorem pruneElems_basicLike (cfg : Config) (rp : Nat → List Nat) :
    ∀ (xs : List JValue),
      (∀ x ∈ xs, ∀ (d : Nat) (ns : List String),
        pruneV (New cfg rp) x d ns = (Basic.prune (basicOf cfg) x d, ns)) →
      ∀ (d : Nat) (ns : List String),
        pruneElems (New cfg rp) xs d ns =
          (Basic.pruneElems (basicOf cfg) xs d xs.length, ns) := by
  intro xs
  induction xs with
  | nil => intro _ d ns; rfl
  | cons x rest ih =>
      intro hl d ns
      have hpx := hl x (List.mem_cons_self _ _) (d + 1) ns
      have hrest := ih (fun z hz => hl z (List.mem_cons_of_mem _ hz)) d ns
      simp only [pruneElems, hpx, hrest, List.length_cons, Basic.pruneElems,
        stripEmpty_agree]
      split <;> rfl

theorem pruneFields_basicLike (cfg : Config) (rp : Nat → List Nat)
    (h : BasicLike cfg) :
    ∀ (fs : List (String × JValue)),
      (∀ p ∈ fs, ∀ (d : Nat) (ns : List String),
        pruneV (New cfg rp) p.2 d ns = (Basic.prune (basicOf cfg) p.2 d, ns)) →
      ∀ (d : Nat) (ns : List String),
        pruneFields (New cfg rp) fs d ns =
          (Basic.pruneFields (basicOf cfg) fs d, ns) := by
  intro fs
  induction fs with
  | nil => intro _ d ns; rfl
  | cons p rest ih =>
      intro hl d ns
      obtain ⟨k, v⟩ := p
      have hpx := hl (k, v) (List.mem_cons_self _ _) (d + 1) ns
      have hrest : ∀ ns', pruneFields (New cfg rp) rest d ns' =
          (Basic.pruneFields (basicOf cfg) rest d, ns') :=
        fun ns' => ih (fun z hz => hl z (List.mem_cons_of_mem _ hz)) d ns'
      have hnc' := (New_nullCompression cfg rp).trans h.hNC
      simp only [pruneFields, Basic.pruneFields, isBlocked_agree, hnc',
        Bool.and_false, Bool.false_eq_true, if_false, hpx, hrest,
        stripEmpty_agree]
      repeat' split
      all_goals rfl
theorem finalList_basicLike (cfg : Config) (rp : Nat → List Nat)
    (h : BasicLike cfg) (xs : List JValue) (d : Nat) :
    sampleArray (New cfg rp) (Basic.pruneElems (basicOf cfg) xs d xs.length) =
      Basic.pruneElems (basicOf cfg) xs d
        (if 0 < (basicOf cfg).maxListLength ∧
            (basicOf cfg).maxListLength < (xs.length : Int)
         then (basicOf cfg).maxListLength.toNat else xs.length) := by
  rw [sampleArray_basicLike cfg rp h]
  have hb : (basicOf cfg).maxListLength = cfg.maxListLength := rfl
  rw [hb]
  rcases h.hOK with hse | hle
  · have hse' : (basicOf cfg).stripEmpty = false := hse
    simp only [basic_pruneElems_map (basicOf cfg) hse', List.take_length,
      List.length_map]
    by_cases hc : 0 < cfg.maxListLength ∧ cfg.maxListLength < (xs.length : Int)
    · rw [if_pos hc, if_pos hc, List.map_take]
    · rw [if_neg hc, if_neg hc, List.take_length]
  · have hc1 : ¬(0 < cfg.maxListLength ∧ cfg.maxListLength <
        ((Basic.pruneElems (basicOf cfg) xs d xs.length).length : Int)) := by
      omega
    have hc2 : ¬(0 < cfg.maxListLength ∧
        cfg.maxListLength < (xs.length : Int)) := by omega
    rw [if_neg hc1, if_neg hc2]
theorem pruneV_basicLike (cfg : Config) (rp : Nat → List Nat)
    (h : BasicLike cfg) :
    ∀ (v : JValue) (d : Nat) (ns : List String),
      pruneV (New cfg rp) v d ns = (Basic.prune (basicOf cfg) v d, ns) := by
  intro v
  induction v using JValue.inductOn with
  | hnull => intro d ns; rfl
  | hbool b =>
      intro d ns
      simp only [pruneV, Basic.prune, depthCut_agree]
      split <;> rfl
  | hnum q =>
      intro d ns
      have hdec' := (New_decimalPlaces cfg rp).trans h.hDec
      simp only [pruneV, Basic.prune, depthCut_agree, hdec']
      rw [if_neg (by decide : ¬ ((0 : Int) ≤ -1))]
      split <;> rfl
  | hstr s =>
      intro d ns
      simp only [pruneV, Basic.prune, depthCut_agree, stripEmpty_agree,
        pruneString_basicLike cfg rp h s]
      repeat' split
      all_goals rfl
  | harr xs ih =>
      intro d ns
      have hel := pruneElems_basicLike cfg rp xs ih d ns
      have hdd' := (New_deduplicateArrays cfg rp).trans h.hDedup
      have hti' := (New_typeInference cfg rp).trans h.hTI
      have hnd' := (New_numberDeltaEncoding cfg rp).trans h.hND
      cases hxs : xs.isEmpty with
      | true =>
          have hx : xs = [] := by
            cases xs with
            | nil => rfl
            | cons a t => cases hxs
          subst hx
          simp only [pruneV, Basic.prune, depthCut_agree, stripEmpty_agree]
          repeat' split
          all_goals first | rfl | simp_all
      | false =>
          have hF := finalList_basicLike cfg rp h xs d
          simp only [pruneV, Basic.prune, depthCut_agree, stripEmpty_agree,
            hxs, Bool.false_eq_true, if_false, hdd', hel,
            applyArrayRewrites_off (New cfg rp) hti' hnd', hF]
          repeat' split
          all_goals rfl
  | hobj fs ih =>
      intro d ns
      have hfl := pruneFields_basicLike cfg rp h fs ih d ns
      have hbc' := (New_boolCompression cfg rp).trans h.hBC
      cases hfs : fs.isEmpty with
      | true =>
          have hx : fs = [] := by
            cases fs with
            | nil => rfl
            | cons a t => cases hfs
          subst hx
          simp only [pruneV, Basic.prune, depthCut_agree, stripEmpty_agree]
          repeat' split
          all_goals first | rfl | simp_all
      | false =>
          simp only [pruneV, Basic.prune, depthCut_agree, stripEmpty_agree,
            hfs, Bool.false_eq_true, if_false, hbc', hfl]
          repeat' split
          all_goals rfl
/-- C10 (amended): for every Configuration in the five-option family
(decimal places -1, every advanced option disabled) in which additionally
strip-empty is off or the list bound is non-positive, the advanced engine's
Slim agrees with the basic engine's Slim on every input.  (When strip-empty
and a positive list bound are combined the engines differ, because the
basic engine truncates the array before strip-filtering while the advanced
engine strip-filters first; see the counterexample.) -/
theorem C10_engine_equivalence (cfg : Config) (rp : Nat → List Nat)
    (h : BasicLike cfg) (v : JValue) :
    runSlim cfg rp v = Basic.Slim (basicOf cfg) v := by
  rw [runSlim_eq_prune cfg rp h.hSP h.hED h.hNC v,
    pruneV_basicLike cfg rp h v 0 []]
  rfl

/-- Witness for C10: a concrete five-option Configuration and input where
both engines agree. -/
theorem C10_engine_equivalence_witness :
    BasicLike { maxDepth := 3, maxListLength := 2, maxStringLength := 5,
                decimalPlaces := -1 } ∧
    runSlim { maxDepth := 3, maxListLength := 2, maxStringLength := 5,
              decimalPlaces := -1 } idPerm
        (.obj [("a", .arr [.num 1, .num 2, .num 3]), ("b", .str "abcdefgh")])
      = Basic.Slim
        (basicOf { maxDepth := 3, maxListLength := 2, maxStringLength := 5, decimalPlaces := -1 })
        (.obj [("a", .arr [.num 1, .num 2, .num 3]), ("b", .str "abcdefgh")]) :=
  ⟨⟨rfl, rfl, rfl, rfl, rfl, rfl, rfl, rfl, rfl, rfl, rfl, rfl, Or.inl rfl⟩,
   C10_engine_equivalence _ idPerm
     ⟨rfl, rfl, rfl, rfl, rfl, rfl, rfl, rfl, rfl, rfl, rfl, rfl, Or.inl rfl⟩ _⟩

/-- Counterexample to C10 as stated over the whole five-option family: with
strip-empty on and max-list-length 2, on the input ["", 1, 2] the advanced
engine drops the empty string first and then samples, keeping [1, 2], while
the basic engine truncates to ["", 1] first and then strips, keeping [1]. -/
theorem C10_counterexample :
    runSlim { maxListLength := 2, stripEmpty := true, decimalPlaces := -1 }
        idPerm (.arr [.str "", .num 1, .num 2])
      = .arr [.num 1, .num 2] ∧
    Basic.Slim
        (basicOf { maxListLength := 2, stripEmpty := true, decimalPlaces := -1 })
        (.arr [.str "", .num 1, .num 2])
      = .arr [.num 1] ∧
    JValue.arr [.num 1, .num 2] ≠ JValue.arr [.num 1] := by
  refine ⟨rfl, rfl, ?_⟩
  simp
